import Mathlib

/-!
Verification of `ipinfo_lite.py` (geoip2cn): a shallow embedding of the
extraction pipeline — record classification, AS-domain rule table, keyword
regex, grouping scan, range collapsing, and the zone-file output phase —
together with proofs of the specified properties.

Machine integers do not occur: the script manipulates Python strings,
dicts, sets and arbitrary-precision ints, so `Nat`/`String`/lists model
them directly.  Filesystem effects are modelled by an explicit
association list from paths to file contents, and per-path write failures
(directory creation / `open` errors) by a `bad : FPath → Bool` environment
parameter.  Exceptions are modelled with `Except`.
-/

/-! ## Strings and Python values -/

/-- ASCII lower-casing of one character (`str.lower` restricted to ASCII,
which covers every string the rule table and the keyword list contain). -/
def lowChar (c : Char) : Char :=
  if 65 ≤ c.toNat ∧ c.toNat ≤ 90 then Char.ofNat (c.toNat + 32) else c

/-- `str.lower()` (ASCII). -/
def strLower (s : String) : String := ⟨s.data.map lowChar⟩

/-- A Python value stored in a database record field.  `vstr` is a string;
`vother` models a truthy, hashable non-string value (e.g. a number), on
which string methods and `re.search` raise `TypeError`. -/
inductive Value where
  | vstr (s : String)
  | vother
deriving DecidableEq

/-- Python truthiness of a record field value (`""` is falsy). -/
def truthy : Value → Bool
  | .vstr s => !(s == "")
  | .vother => true

/-- `value.lower()`: raises (`AttributeError`) on a non-string. -/
def valueLower : Value → Except Unit String
  | .vstr s => .ok (strLower s)
  | .vother => .error ()

/-! ## The AS-domain rule table (`AsDomain`, `AS_DOMAINS`, `AS_DOMAIN_KV`) -/

structure AsDomain where
  domain : String
  is_filter : Bool := true
  use_as_name : Bool := false
deriving DecidableEq

def AS_DOMAINS : List AsDomain :=
  [ { domain := "10086.cn" },
    { domain := "chinamobile.com" },
    { domain := "chinaunicom.cn" },
    { domain := "189.cn" },
    { domain := "chinatelecom.cn", use_as_name := true },
    { domain := "chinatelecom.com.cn", use_as_name := true },
    { domain := "360.cn" },
    { domain := "360.net" },
    { domain := "baidu.com" },
    { domain := "qq.com" },
    { domain := "tencent.com" },
    { domain := "huawei.com" },
    { domain := "huaweicloud.com" },
    { domain := "alibabacloud.com" },
    { domain := "bytedance.com" },
    { domain := "alibabagroup.com" },
    { domain := "volcengine.com" } ]

/-- `AS_DOMAIN_KV.get(key)` for a string key: the dict comprehension
`{v.domain: v for v in AS_DOMAINS}` keeps the last entry for a repeated
domain, hence the lookup over the reversed list. -/
def AS_DOMAIN_KV_get (s : String) : Option AsDomain :=
  AS_DOMAINS.reverse.find? (fun a => a.domain == s)

/-- `AS_DOMAIN_KV.get(value)`: a (hashable) non-string key is simply absent
from the table. -/
def kvGet : Value → Option AsDomain
  | .vstr s => AS_DOMAIN_KV_get s
  | .vother => none

/-! ## The AS-name keyword pattern (`AS_NAME_KEYWORDS`, `REGEX_AS_NAME`) -/

def AS_NAME_KEYWORDS : List String :=
  [ "Beijing", "Tianjin", "Hebei", "Jiangsu", "Nanjing", "Sichuan",
    "SHAANXI", "Xiamen", "Shandong", "Qingdao", "Jinan", "Guizhou",
    "Guangdong", "NINGXIA", "Yunnan", "Cloud Computing Corporation" ]

/-- A regex `\w` word character (ASCII fragment, closed under `lowChar`). -/
def isWordChar (c : Char) : Bool := c.isAlpha || c.isDigit || c == '_'

/-- The literal keyword `kw` occurs at position `i` of `cs` (both already
case-folded). -/
def matchesAt (cs kw : List Char) (i : Nat) : Bool :=
  decide ((cs.drop i).take kw.length = kw)

/-- `\b` holds between positions `i - 1` and `i` when the following branch
text starts with a word character. -/
def boundaryBefore (cs : List Char) (i : Nat) : Bool :=
  decide (i = 0) || !isWordChar (cs.getD (i - 1) ' ')

/-- `\b` holds between positions `j - 1` and `j` when the preceding branch
text ends with a word character. -/
def boundaryAfter (cs : List Char) (j : Nat) : Bool :=
  decide (j = cs.length) || !isWordChar (cs.getD j ' ')

/-- One alternation branch of the compiled pattern
`rf"\b{'|'.join(re.escape(x) for x in AS_NAME_KEYWORDS)}\b"`, matched at
position `i`.  Alternation binds loosest in a regex, so the leading `\b`
belongs to the first branch only and the trailing `\b` to the last branch
only; the middle branches are bare literals. -/
def branchMatchesAt (cs : List Char) (i idx : Nat) (kw : List Char) : Bool :=
  matchesAt cs kw i
    && (!(decide (idx = 0)) || boundaryBefore cs i)
    && (!(decide (idx = AS_NAME_KEYWORDS.length - 1)) || boundaryAfter cs (i + kw.length))

/-- `bool(REGEX_AS_NAME.search(s))`: some alternation branch of
`REGEX_AS_NAME` matches at some position of `s`.  `re.I` is modelled by
case-folding both sides. -/
def regexAsNameSearch (s : String) : Bool :=
  let cs := s.data.map lowChar
  (List.range (cs.length + 1)).any fun i =>
    AS_NAME_KEYWORDS.enum.any fun ik =>
      branchMatchesAt cs i ik.1 (ik.2.data.map lowChar)

/-- Modelled from the spec: the keyword search as the spec describes it —
every keyword is matched case-insensitively with word-boundary anchors on
BOTH sides of EVERY keyword ("combined into a single case-insensitive
alternation with word-boundary anchors on each side").  Used only to
compare the spec's wording against `regexAsNameSearch`. -/
def specKeywordSearch (s : String) : Bool :=
  let cs := s.data.map lowChar
  (List.range (cs.length + 1)).any fun i =>
    AS_NAME_KEYWORDS.any fun kw =>
      let k := kw.data.map lowChar
      matchesAt cs k i && boundaryBefore cs i && boundaryAfter cs (i + k.length)

/-! ## The record classifier (`IPInfo`) -/

structure IPInfo where
  continent : Value := .vstr ""
  continent_code : Value := .vstr ""
  country : Value := .vstr ""
  country_code : Value := .vstr ""
  as_domain : Value := .vstr ""
  as_name : Value := .vstr ""
  asn : Value := .vstr ""
deriving DecidableEq

/-- A raw database record: a mapping of field name to value (Python dict
keys are unique; first match wins in this association list). -/
abbrev Record := List (String × Value)

def rlookup (r : Record) (k : String) : Value :=
  ((r.find? (fun p => p.1 == k)).map Prod.snd).getD (.vstr "")

/-- `IPInfo.from_dict`: keep only recognized fields, default `""`. -/
def IPInfo.from_dict (r : Record) : IPInfo :=
  { continent := rlookup r "continent",
    continent_code := rlookup r "continent_code",
    country := rlookup r "country",
    country_code := rlookup r "country_code",
    as_domain := rlookup r "as_domain",
    as_name := rlookup r "as_name",
    asn := rlookup r "asn" }

/-- `IPInfo.is_cn`: `self.country_code == "CN"` (never raises). -/
def IPInfo.is_cn (ip : IPInfo) : Bool := decide (ip.country_code = .vstr "CN")

/-- `IPInfo.is_filter_domain`: the lookup key is `self.as_domain` exactly as
stored (the source does not lower-case it).  `re.search` on a non-string
`as_name` raises `TypeError`, modelled by `.error ()`. -/
def IPInfo.is_filter_domain (ip : IPInfo) : Except Unit Bool :=
  if truthy ip.as_domain then
    match kvGet ip.as_domain with
    | some obj =>
      if obj.is_filter then
        if obj.use_as_name then
          match ip.as_name with
          | .vstr s => .ok (regexAsNameSearch s)
          | .vother => .error ()
        else .ok true
      else .ok false
    | none => .ok false
  else .ok false

/-- Modelled from the spec: the `is_filtered_domain()` predicate exactly as
the claim words it — "a rule exists for the lowercase-normalized domain".
Used only to compare the spec's wording against
`IPInfo.is_filter_domain`. -/
def is_filtered_domain_specSide (ip : IPInfo) : Bool :=
  match ip.as_domain with
  | .vstr d =>
    d ≠ "" &&
      match AS_DOMAIN_KV_get (strLower d) with
      | some rule =>
        rule.is_filter &&
          (!rule.use_as_name ||
            match ip.as_name with
            | .vstr n => regexAsNameSearch n
            | .vother => false)
      | none => false
  | .vother => false

/-! ## IP networks and the network-key parser -/

/-- A CIDR network of one address family of bit width `w` (32 or 128):
base address `base` and routing prefix length `plen`, covering addresses
`[base, base + 2 ^ (w - plen))`. -/
structure Net where
  base : Nat
  plen : Nat
deriving DecidableEq

/-- Address `a` lies in network `n` (family width `w`). -/
def NetMem (w : Nat) (a : Nat) (n : Net) : Prop :=
  n.base ≤ a ∧ a < n.base + 2 ^ (w - n.plen)

instance (w a : Nat) (n : Net) : Decidable (NetMem w a n) :=
  inferInstanceAs (Decidable (_ ∧ _))

/-- The source-level validity of a family-`w` network: its address block
stays inside the `w`-bit address space. -/
def NetValid (w : Nat) (n : Net) : Prop := n.base + 2 ^ (w - n.plen) ≤ 2 ^ w

instance (w : Nat) (n : Net) : Decidable (NetValid w n) :=
  inferInstanceAs (Decidable (_ ≤ _))

def splitOnChar (c : Char) : List Char → List (List Char)
  | [] => [[]]
  | x :: xs =>
    let r := splitOnChar c xs
    if x == c then [] :: r
    else
      match r with
      | [] => [[x]]
      | y :: ys => (x :: y) :: ys

/-- A non-empty all-digit numeral without a leading zero. -/
def parseDecimal (cs : List Char) : Option Nat :=
  if cs = [] then none
  else if cs.all Char.isDigit then
    if 1 < cs.length ∧ cs.headD '0' = '0' then none
    else some (cs.foldl (fun a c => a * 10 + (c.toNat - 48)) 0)
  else none

def parseOctet (cs : List Char) : Option Nat :=
  match parseDecimal cs with
  | some n => if n ≤ 255 then some n else none
  | none => none

def parse_ipv4_addr (cs : List Char) : Option Nat :=
  match splitOnChar '.' cs with
  | [a, b, c, d] => do
    let a ← parseOctet a
    let b ← parseOctet b
    let c ← parseOctet c
    let d ← parseOctet d
    some (((a * 256 + b) * 256 + c) * 256 + d)
  | _ => none

/-- Modelled from the spec: `ipaddress.ip_network(key)` (standard-library
code, not part of `src/`) — "the network_key is assumed parseable as a
standard CIDR string of either IPv4 or IPv6 family", strict (a set host
bit is a `ValueError`), a bare address meaning a full-length network.
Only the IPv4 textual grammar is rendered concretely (dotted quad,
optional `/plen`); no claim depends on the IPv6 literal syntax.  Returns
the address family version together with the parsed network, `none` for
the `ValueError` the caller catches. -/
def parse_ip_network (s : String) : Option (Nat × Net) :=
  match splitOnChar '/' s.data with
  | [a] => (parse_ipv4_addr a).map (fun base => (4, ⟨base, 32⟩))
  | [a, p] => do
    let base ← parse_ipv4_addr a
    let plen ← parseDecimal p
    if plen ≤ 32 ∧ base % 2 ^ (32 - plen) = 0 then some (4, ⟨base, plen⟩)
    else none
  | _ => none

/-- `f"ipv{net.version}"`. -/
def ipvStr (ver : Nat) : String := "ipv" ++ toString ver

/-! ## The range collapser

`ipaddress.collapse_addresses` is standard-library code, not part of
`src/`.  Modelled from the spec (§4.4): "the minimal set of CIDR blocks
whose union exactly equals the union of the input, with no two output
blocks mergeable into a single larger valid CIDR block, and no overlaps
... Output order is ascending by base address."  The model computes that
(unique) minimal set canonically: networks become half-open address
intervals, sorted by lower end; overlapping or adjacent intervals are
merged; each maximal interval is split greedily into the largest aligned
CIDR blocks.  Recursion is fuel-based so that every function evaluates by
kernel reduction. -/

/-- A half-open address interval `[lo, hi)`. -/
abbrev Iv := Nat × Nat

def ivMem (a : Nat) (i : Iv) : Prop := i.1 ≤ a ∧ a < i.2

instance (a : Nat) (i : Iv) : Decidable (ivMem a i) :=
  inferInstanceAs (Decidable (_ ∧ _))

/-- Membership in the union of a list of intervals. -/
def ivsMem (a : Nat) (l : List Iv) : Prop := ∃ i ∈ l, ivMem a i

/-- Ordering of intervals by lower end, used for sorting. -/
def ivLe (x y : Iv) : Prop := x.1 ≤ y.1

instance : DecidableRel ivLe := fun x y => inferInstanceAs (Decidable (x.1 ≤ y.1))

instance : IsTotal Iv ivLe := ⟨fun x y => Nat.le_total x.1 y.1⟩

instance : IsTrans Iv ivLe := ⟨fun _ _ _ h h' => Nat.le_trans h h'⟩

/-- Merge a lo-sorted interval list: adjacent or overlapping neighbours
(`c ≤ b`) fuse into their hull.  Fuel-based; `mergeIvs` supplies enough
fuel. -/
def mergeGo : Nat → List Iv → List Iv
  | 0, l => l
  | _ + 1, [] => []
  | _ + 1, [i] => [i]
  | f + 1, (a, b) :: (c, d) :: rest =>
    if c ≤ b then mergeGo f ((a, max b d) :: rest)
    else (a, b) :: mergeGo f ((c, d) :: rest)

def mergeIvs (l : List Iv) : List Iv := mergeGo l.length l

/-- Fuel-based binary logarithm (`log2F f n = ⌊log₂ n⌋` whenever `n ≤ f`). -/
def log2F : Nat → Nat → Nat
  | 0, _ => 0
  | f + 1, n => if n ≤ 1 then 0 else log2F f (n / 2) + 1

def log2 (n : Nat) : Nat := log2F n n

/-- Largest exponent `k ≤ cap` with `2 ^ k ∣ lo` and `2 ^ k ≤ len`. -/
def maxExpAux (lo len : Nat) : Nat → Nat
  | 0 => 0
  | k + 1 =>
    if lo % 2 ^ (k + 1) = 0 ∧ 2 ^ (k + 1) ≤ len then k + 1
    else maxExpAux lo len k

/-- The size (as an exponent) of the largest aligned CIDR block starting at
`lo` and fitting in `len` addresses. -/
def maxExp (lo len : Nat) : Nat := maxExpAux lo len (log2 len)

/-- Greedy split of `[lo, hi)` into maximal aligned blocks `(start, exp)`.
Fuel-based; `chunks` supplies enough fuel. -/
def chunksGo : Nat → Nat → Nat → List (Nat × Nat)
  | 0, _, _ => []
  | f + 1, lo, hi =>
    if lo < hi then
      let k := maxExp lo (hi - lo)
      (lo, k) :: chunksGo f (lo + 2 ^ k) hi
    else []

def chunks (lo hi : Nat) : List (Nat × Nat) := chunksGo (hi - lo) lo hi

/-- The address interval a family-`w` network covers. -/
def Net.iv (w : Nat) (n : Net) : Iv := (n.base, n.base + 2 ^ (w - n.plen))

/-- The network a greedy block `(start, exp)` denotes. -/
def chunkNet (w : Nat) (ck : Nat × Nat) : Net := ⟨ck.1, w - ck.2⟩

/-- `ipaddress.collapse_addresses` (see the section comment): sort by base
address, merge overlapping/adjacent ranges, emit the minimal CIDR
cover in ascending order. -/
def collapse (w : Nat) (l : List Net) : List Net :=
  (mergeIvs (List.insertionSort ivLe (l.map (Net.iv w)))).flatMap
    (fun i => (chunks i.1 i.2).map (chunkNet w))

/-! ## The filesystem model and the zone-file writer -/

abbrev FPath := List String

/-- The observable filesystem: file path to file contents.  `fsWrite`
keeps at most one entry per path. -/
abbrev FS := List (FPath × String)

def fsRead (fs : FS) (p : FPath) : Option String :=
  (fs.find? (fun e => e.1 == p)).map Prod.snd

def fsWrite (fs : FS) (p : FPath) (c : String) : FS :=
  (p, c) :: fs.eraseP (fun e => e.1 == p)

/-- Modelled from the spec: the canonical CIDR text `address/prefixlen`
printed by `f"{net}"` (standard-library `__str__`, not part of `src/`) —
dotted quad for IPv4; the IPv6 zero-compressed form is abbreviated to
`base/plen` since no claim depends on the glyphs. -/
def netStr (w : Nat) (n : Net) : String :=
  if w = 32 then
    toString (n.base / 16777216 % 256) ++ "." ++ toString (n.base / 65536 % 256) ++ "." ++
      toString (n.base / 256 % 256) ++ "." ++ toString (n.base % 256) ++ "/" ++ toString n.plen
  else toString n.base ++ "/" ++ toString n.plen

/-- The text the writer loop produces: one network per line, in order. -/
def zoneText (w : Nat) (networks : List Net) : String :=
  networks.foldl (fun acc n => acc ++ (netStr w n ++ "\n")) ""

/-- What one `save_zone_file` call leaves behind: the filesystem, the count
it logs (`Saved {count} networks to {zone_file}`), and the Python value it
returns — the function is annotated `-> None` and has no return statement,
so `ret` is always `none`. -/
structure SaveResult where
  fs : FS
  loggedCount : Nat
  ret : Option Nat
deriving DecidableEq

/-- `save_zone_file(zone_file, networks)`: ensure the parent directory,
open for writing (truncating), write `f"{net}\n"` per network, log the
count.  `bad` tells which paths fail directory creation or `open`; such a
failure raises `OSError`, modelled as `.error`. -/
def save_zone_file (bad : FPath → Bool) (w : Nat) (zone_file : FPath) (networks : List Net)
    (fs : FS) : Except FPath SaveResult :=
  if bad zone_file then .error zone_file
  else
    .ok { fs := fsWrite fs zone_file (zoneText w networks),
          loggedCount := networks.foldl (fun c _ => c + 1) 0,
          ret := none }

/-! ## The output phase of `extract_ip_networks` -/

def countryPath (version c : String) : FPath := ["data", "countries", version, c ++ ".zone"]

def domainPath (version d : String) : FPath := ["data", "domains", version, d ++ ".zone"]

def aggPath (version : String) : FPath := ["data", "domains", version, "aggregated.zone"]

/-- One per-version inner grouping: `f"ipv{version}"` key to the
accumulated network set (a duplicate-free list; its order is abstracted by
the determinism theorem). -/
abbrev VGroups := List (String × List Net)

/-- The two-level grouping (`defaultdict(lambda: defaultdict(set))`):
insertion-ordered keys, as Python dict iteration is insertion-ordered. -/
abbrev Groups := List (String × VGroups)

/-- `for c, ip_networks in countries.items(): if version in ip_networks:
save_zone_file(...)` — an uncaught write failure aborts the whole loop. -/
def runCountryKeys (bad : FPath → Bool) (w : Nat) (version : String) :
    Groups → FS → FS × Option FPath
  | [], fs => (fs, none)
  | (c, m) :: rest, fs =>
    match List.lookup version m with
    | none => runCountryKeys bad w version rest fs
    | some nets =>
      match save_zone_file bad w (countryPath version c) (collapse w nets) fs with
      | .error e => (fs, some e)
      | .ok r => runCountryKeys bad w version rest r.fs

/-- The domains loop: write the per-domain zone file, then
`shutil.copyfileobj(open(zone_file), af)` appends its content to the
aggregated file.  An uncaught write failure aborts the whole loop. -/
def runDomainKeys (bad : FPath → Bool) (w : Nat) (version : String) :
    Groups → FS → FS × Option FPath
  | [], fs => (fs, none)
  | (d, m) :: rest, fs =>
    match List.lookup version m with
    | none => runDomainKeys bad w version rest fs
    | some nets =>
      match save_zone_file bad w (domainPath version d) (collapse w nets) fs with
      | .error e => (fs, some e)
      | .ok r =>
        let chunk := (fsRead r.fs (domainPath version d)).getD ""
        let old := (fsRead r.fs (aggPath version)).getD ""
        runDomainKeys bad w version rest (fsWrite r.fs (aggPath version) (old ++ chunk))

/-- One iteration of `for version in ip_versions`: the countries loop,
then `open(domain_aggregated_file, "w")` (truncating it), then the domains
loop. -/
def versionPass (bad : FPath → Bool) (w : Nat) (version : String)
    (countries domains : Groups) (fs : FS) : FS × Option FPath :=
  match runCountryKeys bad w version countries fs with
  | (fs1, some e) => (fs1, some e)
  | (fs1, none) =>
    if bad (aggPath version) then (fs1, some (aggPath version))
    else runDomainKeys bad w version domains (fsWrite fs1 (aggPath version) "")

/-- The whole output phase of `extract_ip_networks` (lines 300–314): the
`ipv4` pass then the `ipv6` pass; the first uncaught failure aborts. -/
def extract_output (bad : FPath → Bool) (w : Nat) (countries domains : Groups)
    (fs : FS) : FS × Option FPath :=
  match versionPass bad w "ipv4" countries domains fs with
  | (fs1, some e) => (fs1, some e)
  | (fs1, none) => versionPass bad w "ipv6" countries domains fs1

/-! ## The record scan of `extract_ip_networks` -/

/-- `set.add` on the duplicate-free accumulator list. -/
def ginsertNets (l : List Net) (n : Net) : List Net := if n ∈ l then l else l ++ [n]

/-- `defaultdict` insert at the inner (`f"ipv{v}"`) level. -/
def ginsertV (m : VGroups) (ipv : String) (n : Net) : VGroups :=
  match m with
  | [] => [(ipv, ginsertNets [] n)]
  | (k, l) :: rest =>
    if k == ipv then (k, ginsertNets l n) :: rest else (k, l) :: ginsertV rest ipv n

/-- `defaultdict` insert at the outer (group key) level. -/
def ginsert (g : Groups) (key ipv : String) (n : Net) : Groups :=
  match g with
  | [] => [(key, ginsertV [] ipv n)]
  | (k, m) :: rest =>
    if k == key then (k, ginsertV m ipv n) :: rest else (k, m) :: ginsert rest key ipv n

/-- The `try:` body for one `(network, record)` pair, lines 286–298: build
the `IPInfo`, test `is_cn`, parse the network key (a `ValueError` is
caught and the record contributes nothing), insert into the country
groups, then test `is_filter_domain` — a `TypeError` raised there is
caught by the same `except`, but the country insertion it follows has
already happened and persists. -/
def scanRecord (countries domains : Groups) (network : String) (rec : Record) :
    Groups × Groups :=
  let ip := IPInfo.from_dict rec
  if ip.is_cn then
    match parse_ip_network network with
    | none => (countries, domains)
    | some (ver, net) =>
      match valueLower ip.country_code with
      | .error _ => (countries, domains)
      | .ok cc =>
        let countries1 := ginsert countries cc (ipvStr ver) net
        match ip.is_filter_domain with
        | .error _ => (countries1, domains)
        | .ok true =>
          match valueLower ip.as_domain with
          | .error _ => (countries1, domains)
          | .ok ad => (countries1, ginsert domains ad (ipvStr ver) net)
        | .ok false => (countries1, domains)
  else (countries, domains)

/-- The reader loop (`for network, record in reader`), folding
`scanRecord` over the yielded pairs; it never aborts. -/
def scanList (entries : List (String × Record)) (st : Groups × Groups) : Groups × Groups :=
  entries.foldl (fun cd e => scanRecord cd.1 cd.2 e.1 e.2) st

/-- Decidable equality for `Except`, used to evaluate the embedding on
concrete inputs. -/
def exceptDecEq {e a : Type} [DecidableEq e] [DecidableEq a] :
    DecidableEq (Except e a)
  | .error e₁, .error e₂ =>
    if h : e₁ = e₂ then .isTrue (by rw [h])
    else .isFalse (by intro hh; injection hh with hx; exact h hx)
  | .error _, .ok _ => .isFalse (by intro hh; cases hh)
  | .ok _, .error _ => .isFalse (by intro hh; cases hh)
  | .ok a₁, .ok a₂ =>
    if h : a₁ = a₂ then .isTrue (by rw [h])
    else .isFalse (by intro hh; injection hh with hx; exact h hx)

instance {e a : Type} [DecidableEq e] [DecidableEq a] : DecidableEq (Except e a) :=
  exceptDecEq

/-! # Supporting lemmas -/

/-! ## Generic list/filesystem lemmas -/

/-- Concatenation of a list of strings (`shutil.copyfileobj` appends). -/
def concatStrs (l : List String) : String := l.foldr (fun a b => a ++ b) ""

theorem foldl_append_eq_concat (f : Net → String) (l : List Net) (init : String) :
    l.foldl (fun acc n => acc ++ f n) init = init ++ concatStrs (l.map f) := by
  induction l generalizing init with
  | nil => simp [concatStrs]
  | cons x xs ih =>
    simp only [List.foldl_cons, List.map_cons, concatStrs, List.foldr_cons] at *
    rw [ih (init ++ f x), String.append_assoc]

theorem zoneText_eq_concat (w : Nat) (l : List Net) :
    zoneText w l = concatStrs (l.map (fun n => netStr w n ++ "\n")) := by
  have := foldl_append_eq_concat (fun n => netStr w n ++ "\n") l ""
  simpa [zoneText] using this

theorem foldl_count (l : List Net) (init : Nat) :
    l.foldl (fun c _ => c + 1) init = init + l.length := by
  induction l generalizing init with
  | nil => simp
  | cons x xs ih => simp only [List.foldl_cons, List.length_cons, ih]; omega

theorem find?_eraseP_of_ne {p q : FPath} (fs : FS) (hne : p ≠ q) :
    (fs.eraseP (fun e => e.1 == p)).find? (fun e => e.1 == q) =
      fs.find? (fun e => e.1 == q) := by
  induction fs with
  | nil => rfl
  | cons x xs ih =>
    by_cases hxp : x.1 = p
    · have he : List.eraseP (fun e => e.1 == p) (x :: xs) = xs :=
        List.eraseP_cons_of_pos (by simp [hxp])
      rw [he, List.find?_cons_of_neg _ (by simp [hxp]; tauto)]
    · have he : List.eraseP (fun e => e.1 == p) (x :: xs) = x :: List.eraseP (fun e => e.1 == p) xs :=
        List.eraseP_cons_of_neg (by simp [hxp])
      rw [he]
      by_cases hxq : x.1 = q
      · rw [List.find?_cons_of_pos _ (by simp [hxq]), List.find?_cons_of_pos _ (by simp [hxq])]
      · rw [List.find?_cons_of_neg _ (by simp [hxq]), List.find?_cons_of_neg _ (by simp [hxq]),
          ih]

/-- The one filesystem fact everything else uses: reading after a write. -/
theorem fsRead_fsWrite (fs : FS) (p : FPath) (c : String) (q : FPath) :
    fsRead (fsWrite fs p c) q = if q = p then some c else fsRead fs q := by
  unfold fsRead fsWrite
  by_cases h : q = p
  · subst h
    rw [List.find?_cons_of_pos _ (by simp)]
    simp
  · rw [List.find?_cons_of_neg _ (by simp; exact fun hh => h hh.symm),
      find?_eraseP_of_ne _ (fun hh => h hh.symm)]
    simp [h]

theorem strAppend_right_cancel {a b s : String} (h : a ++ s = b ++ s) : a = b := by
  cases a with
  | mk da =>
    cases b with
    | mk db =>
      cases s with
      | mk ds =>
        have hd : da ++ ds = db ++ ds := by
          have := congrArg String.data h
          simpa using this
        exact congrArg String.mk (List.append_cancel_right hd)

/-! ## Binary logarithm and `maxExp` -/

theorem log2F_pow_le : ∀ f n, 0 < n → n ≤ f → 2 ^ log2F f n ≤ n := by
  intro f
  induction f with
  | zero => intro n h0 h1; omega
  | succ f ih =>
    intro n h0 h1
    simp only [log2F]
    by_cases h : n ≤ 1
    · simp [h]; omega
    · simp only [h, if_false, pow_succ]
      have hdiv : 0 < n / 2 := Nat.div_pos (by omega) (by omega)
      have hle : n / 2 ≤ f := by omega
      have := ih (n / 2) hdiv hle
      have h2 : 2 ^ log2F f (n / 2) * 2 ≤ (n / 2) * 2 := Nat.mul_le_mul_right 2 this
      have h3 : (n / 2) * 2 ≤ n := by omega
      omega

theorem le_log2F_of_pow_le : ∀ f k n, 2 ^ k ≤ n → n ≤ f → k ≤ log2F f n := by
  intro f
  induction f with
  | zero =>
    intro k n hk h1
    have : 0 < 2 ^ k := Nat.pos_pow_of_pos k (by omega)
    omega
  | succ f ih =>
    intro k n hk h1
    cases k with
    | zero => omega
    | succ k =>
      have hn2 : ¬n ≤ 1 := by
        have : 2 ≤ 2 ^ (k + 1) := by
          have : 2 ^ 1 ≤ 2 ^ (k + 1) := Nat.pow_le_pow_right (by omega) (by omega)
          simpa using this
        omega
      simp only [log2F, hn2, if_false]
      have hk' : 2 ^ k ≤ n / 2 := by
        rw [pow_succ] at hk
        omega
      have hle : n / 2 ≤ f := by omega
      have := ih k (n / 2) hk' hle
      omega

theorem log2_pow_le (n : Nat) (h : 0 < n) : 2 ^ log2 n ≤ n :=
  log2F_pow_le n n h (Nat.le_refl n)

theorem le_log2_of_pow_le {k n : Nat} (h : 2 ^ k ≤ n) : k ≤ log2 n :=
  le_log2F_of_pow_le n k n h (Nat.le_refl n)

theorem maxExpAux_spec (lo len : Nat) (hlen : 0 < len) :
    ∀ b, lo % 2 ^ maxExpAux lo len b = 0 ∧ 2 ^ maxExpAux lo len b ≤ len := by
  intro b
  induction b with
  | zero => simp [maxExpAux]; omega
  | succ b ih =>
    simp only [maxExpAux]
    by_cases h : lo % 2 ^ (b + 1) = 0 ∧ 2 ^ (b + 1) ≤ len
    · simp [h]
    · simpa [h] using ih

theorem maxExpAux_max (lo len : Nat) :
    ∀ b k, k ≤ b → lo % 2 ^ k = 0 → 2 ^ k ≤ len → k ≤ maxExpAux lo len b := by
  intro b
  induction b with
  | zero => intro k h _ _; omega
  | succ b ih =>
    intro k hkb hdvd hle
    simp only [maxExpAux]
    by_cases h : lo % 2 ^ (b + 1) = 0 ∧ 2 ^ (b + 1) ≤ len
    · simp [h]; omega
    · simp only [h, if_false]
      have hkb' : k ≤ b := by
        rcases Nat.lt_or_ge k (b + 1) with hlt | hge
        · omega
        · have : k = b + 1 := by omega
          subst this
          exact absurd ⟨hdvd, hle⟩ h
      exact ih k hkb' hdvd hle

theorem maxExp_spec (lo len : Nat) (hlen : 0 < len) :
    lo % 2 ^ maxExp lo len = 0 ∧ 2 ^ maxExp lo len ≤ len :=
  maxExpAux_spec lo len hlen (log2 len)

theorem maxExp_max {lo len k : Nat} (hdvd : lo % 2 ^ k = 0) (hle : 2 ^ k ≤ len) :
    k ≤ maxExp lo len :=
  maxExpAux_max lo len (log2 len) k (le_log2_of_pow_le hle) hdvd hle

/-! ## Greedy CIDR splitting (`chunks`) -/

theorem chunksGo_mem : ∀ f lo hi, hi - lo ≤ f →
    ∀ ck ∈ chunksGo f lo hi,
      lo ≤ ck.1 ∧ ck.1 + 2 ^ ck.2 ≤ hi ∧ ck.1 % 2 ^ ck.2 = 0 ∧
        ck.2 = maxExp ck.1 (hi - ck.1) := by
  intro f
  induction f with
  | zero => intro lo hi hf ck hck; simp [chunksGo] at hck
  | succ f ih =>
    intro lo hi hf ck hck
    simp only [chunksGo] at hck
    by_cases h : lo < hi
    · simp only [h, if_true] at hck
      rcases List.mem_cons.1 hck with rfl | hck
      · have hs := maxExp_spec lo (hi - lo) (by omega)
        exact ⟨Nat.le_refl _, by dsimp only; omega, hs.1, rfl⟩
      · have hpos : 0 < 2 ^ maxExp lo (hi - lo) := Nat.pos_pow_of_pos _ (by omega)
        have hle2 : 2 ^ maxExp lo (hi - lo) ≤ hi - lo := (maxExp_spec lo (hi - lo) (by omega)).2
        have hf' : hi - (lo + 2 ^ maxExp lo (hi - lo)) ≤ f := by omega
        have := ih _ hi hf' ck hck
        exact ⟨by omega, this.2.1, this.2.2.1, this.2.2.2⟩
    · simp [h] at hck

theorem chunksGo_cover : ∀ f lo hi, hi - lo ≤ f →
    ∀ a, (∃ ck ∈ chunksGo f lo hi, ck.1 ≤ a ∧ a < ck.1 + 2 ^ ck.2) ↔ (lo ≤ a ∧ a < hi) := by
  intro f
  induction f with
  | zero =>
    intro lo hi hf a
    simp only [chunksGo]
    simp
    omega
  | succ f ih =>
    intro lo hi hf a
    simp only [chunksGo]
    by_cases h : lo < hi
    · simp only [h, if_true]
      have hpos : 0 < 2 ^ maxExp lo (hi - lo) := Nat.pos_pow_of_pos _ (by omega)
      have hle2 : 2 ^ maxExp lo (hi - lo) ≤ hi - lo := (maxExp_spec lo (hi - lo) (by omega)).2
      have hf' : hi - (lo + 2 ^ maxExp lo (hi - lo)) ≤ f := by omega
      have hrec := ih (lo + 2 ^ maxExp lo (hi - lo)) hi hf' a
      constructor
      · rintro ⟨ck, hck, hmem⟩
        rcases List.mem_cons.1 hck with rfl | hck
        · dsimp only at hmem; omega
        · have := hrec.1 ⟨ck, hck, hmem⟩
          omega
      · rintro ⟨h1, h2⟩
        by_cases ha : a < lo + 2 ^ maxExp lo (hi - lo)
        · exact ⟨(lo, maxExp lo (hi - lo)), List.mem_cons_self _ _, by dsimp only; omega⟩
        · rcases hrec.2 ⟨by omega, h2⟩ with ⟨ck, hck, hmem⟩
          exact ⟨ck, List.mem_cons_of_mem _ hck, hmem⟩
    · simp [h]; omega

theorem chunksGo_ordered : ∀ f lo hi, hi - lo ≤ f →
    List.Pairwise (fun x y => x.1 + 2 ^ x.2 ≤ y.1) (chunksGo f lo hi) := by
  intro f
  induction f with
  | zero => intro lo hi hf; simp [chunksGo]
  | succ f ih =>
    intro lo hi hf
    simp only [chunksGo]
    by_cases h : lo < hi
    · simp only [h, if_true]
      have hpos : 0 < 2 ^ maxExp lo (hi - lo) := Nat.pos_pow_of_pos _ (by omega)
      have hle2 : 2 ^ maxExp lo (hi - lo) ≤ hi - lo := (maxExp_spec lo (hi - lo) (by omega)).2
      have hf' : hi - (lo + 2 ^ maxExp lo (hi - lo)) ≤ f := by omega
      refine List.pairwise_cons.2 ⟨?_, ih _ hi hf'⟩
      intro ck hck
      have := chunksGo_mem f _ hi hf' ck hck
      dsimp only
      omega
    · simp [h]

theorem chunks_mem {lo hi : Nat} :
    ∀ ck ∈ chunks lo hi,
      lo ≤ ck.1 ∧ ck.1 + 2 ^ ck.2 ≤ hi ∧ ck.1 % 2 ^ ck.2 = 0 ∧
        ck.2 = maxExp ck.1 (hi - ck.1) :=
  chunksGo_mem (hi - lo) lo hi (Nat.le_refl _)

theorem chunks_cover {lo hi : Nat} (a : Nat) :
    (∃ ck ∈ chunks lo hi, ck.1 ≤ a ∧ a < ck.1 + 2 ^ ck.2) ↔ (lo ≤ a ∧ a < hi) :=
  chunksGo_cover (hi - lo) lo hi (Nat.le_refl _) a

theorem chunks_ordered {lo hi : Nat} :
    List.Pairwise (fun x y => x.1 + 2 ^ x.2 ≤ y.1) (chunks lo hi) :=
  chunksGo_ordered (hi - lo) lo hi (Nat.le_refl _)

/-- No two greedy blocks of one interval are siblings of a common parent:
the lower one would have been emitted as the parent instead. -/
theorem chunks_sibling_free {lo hi : Nat} {x y : Nat × Nat}
    (hx : x ∈ chunks lo hi) (hy : y ∈ chunks lo hi)
    (hexp : y.2 = x.2) (hadj : y.1 = x.1 + 2 ^ x.2)
    (halign : x.1 % 2 ^ (x.2 + 1) = 0) : False := by
  have hmx := chunks_mem x hx
  have hmy := chunks_mem y hy
  have hle : 2 ^ (x.2 + 1) ≤ hi - x.1 := by
    have : y.1 + 2 ^ y.2 ≤ hi := hmy.2.1
    rw [hexp, hadj] at this
    have hp : 2 ^ (x.2 + 1) = 2 ^ x.2 + 2 ^ x.2 := by rw [pow_succ]; omega
    omega
  have := maxExp_max halign hle
  rw [← hmx.2.2.2] at this
  omega

theorem chunks_exp_le {lo hi w : Nat} (hhi : hi ≤ 2 ^ w) :
    ∀ ck ∈ chunks lo hi, ck.2 ≤ w := by
  intro ck hck
  have hm := chunks_mem ck hck
  have h1 : 2 ^ ck.2 ≤ 2 ^ w := by omega
  exact (Nat.pow_le_pow_iff_right (by omega)).1 h1

/-! ## Merging sorted interval lists (`mergeIvs`) -/

theorem ivsMem_cons {a : Nat} {i : Iv} {l : List Iv} :
    ivsMem a (i :: l) ↔ ivMem a i ∨ ivsMem a l := by
  simp [ivsMem]

theorem mergeGo_lo_ge : ∀ f (x : Iv) (t : List Iv), (x :: t).length ≤ f →
    List.Pairwise ivLe (x :: t) → ∀ j ∈ mergeGo f (x :: t), x.1 ≤ j.1 := by
  intro f
  induction f with
  | zero => intro x t hf; simp at hf
  | succ f ih =>
    intro x t hf hs j hj
    match t with
    | [] =>
      simp only [mergeGo, List.mem_singleton] at hj
      subst hj; exact Nat.le_refl _
    | (c, d) :: rest =>
      obtain ⟨a, b⟩ := x
      simp only [mergeGo] at hj
      have hac : a ≤ c := (List.pairwise_cons.1 hs).1 (c, d) (List.mem_cons_self _ _)
      by_cases h : c ≤ b
      · simp only [h, if_true] at hj
        have hs' : List.Pairwise ivLe ((a, max b d) :: rest) := by
          rcases List.pairwise_cons.1 hs with ⟨h1, hs2⟩
          rcases List.pairwise_cons.1 hs2 with ⟨h2, hs3⟩
          exact List.pairwise_cons.2 ⟨fun y hy => h1 y (List.mem_cons_of_mem _ hy), hs3⟩
        exact ih (a, max b d) rest (by simp at hf ⊢; omega) hs' j hj
      · simp only [h, if_false] at hj
        rcases List.mem_cons.1 hj with rfl | hj
        · exact Nat.le_refl _
        · have hs' : List.Pairwise ivLe ((c, d) :: rest) := (List.pairwise_cons.1 hs).2
          have := ih (c, d) rest (by simp at hf ⊢; omega) hs' j hj
          exact Nat.le_trans hac this

theorem mergeGo_union : ∀ f (l : List Iv), l.length ≤ f → List.Pairwise ivLe l →
    ∀ a, ivsMem a (mergeGo f l) ↔ ivsMem a l := by
  intro f
  induction f with
  | zero =>
    intro l hf hs a
    match l with
    | [] => simp [mergeGo]
  | succ f ih =>
    intro l hf hs a
    match l with
    | [] => simp [mergeGo]
    | [i] => simp [mergeGo]
    | (a₁, b) :: (c, d) :: rest =>
      simp only [mergeGo]
      have hac : a₁ ≤ c := (List.pairwise_cons.1 hs).1 (c, d) (List.mem_cons_self _ _)
      by_cases h : c ≤ b
      · simp only [h, if_true]
        have hs' : List.Pairwise ivLe ((a₁, max b d) :: rest) := by
          rcases List.pairwise_cons.1 hs with ⟨h1, hs2⟩
          rcases List.pairwise_cons.1 hs2 with ⟨h2, hs3⟩
          exact List.pairwise_cons.2 ⟨fun y hy => h1 y (List.mem_cons_of_mem _ hy), hs3⟩
        rw [ih _ (by simp at hf ⊢; omega) hs' a]
        simp only [ivsMem_cons]
        constructor
        · rintro (hm | hm)
          · simp only [ivMem] at hm ⊢
            rcases Nat.lt_or_ge a b with hab | hab
            · exact Or.inl ⟨hm.1, hab⟩
            · right; left
              refine ⟨by omega, ?_⟩
              have hmax : a < max b d := hm.2
              omega
          · exact Or.inr (Or.inr hm)
        · rintro (hm | hm | hm)
          · simp only [ivMem] at hm ⊢
            exact Or.inl ⟨hm.1, by omega⟩
          · simp only [ivMem] at hm ⊢
            exact Or.inl ⟨by omega, by omega⟩
          · exact Or.inr hm
      · simp only [h, if_false]
        have hs' : List.Pairwise ivLe ((c, d) :: rest) := (List.pairwise_cons.1 hs).2
        rw [ivsMem_cons, ih _ (by simp at hf ⊢; omega) hs' a]
        simp [ivsMem_cons]

theorem mergeGo_ne : ∀ f (l : List Iv), l.length ≤ f → (∀ i ∈ l, i.1 < i.2) →
    ∀ j ∈ mergeGo f l, j.1 < j.2 := by
  intro f
  induction f with
  | zero =>
    intro l hf hne j hj
    match l with
    | [] => simp [mergeGo] at hj
  | succ f ih =>
    intro l hf hne j hj
    match l with
    | [] => simp [mergeGo] at hj
    | [i] =>
      simp only [mergeGo, List.mem_singleton] at hj
      subst hj; exact hne _ (List.mem_cons_self _ _)
    | (a₁, b) :: (c, d) :: rest =>
      simp only [mergeGo] at hj
      by_cases h : c ≤ b
      · simp only [h, if_true] at hj
        refine ih _ (by simp at hf ⊢; omega) ?_ j hj
        intro i hi
        rcases List.mem_cons.1 hi with rfl | hi
        · have := hne (a₁, b) (List.mem_cons_self _ _)
          dsimp only at this ⊢
          omega
        · exact hne i (List.mem_cons_of_mem _ (List.mem_cons_of_mem _ hi))
      · simp only [h, if_false] at hj
        rcases List.mem_cons.1 hj with rfl | hj
        · exact hne _ (List.mem_cons_self _ _)
        · exact ih _ (by simp at hf ⊢; omega) (fun i hi => hne i (List.mem_cons_of_mem _ hi)) j hj

theorem mergeGo_hi_le {B : Nat} : ∀ f (l : List Iv), l.length ≤ f → (∀ i ∈ l, i.2 ≤ B) →
    ∀ j ∈ mergeGo f l, j.2 ≤ B := by
  intro f
  induction f with
  | zero =>
    intro l hf hb j hj
    match l with
    | [] => simp [mergeGo] at hj
  | succ f ih =>
    intro l hf hb j hj
    match l with
    | [] => simp [mergeGo] at hj
    | [i] =>
      simp only [mergeGo, List.mem_singleton] at hj
      subst hj; exact hb _ (List.mem_cons_self _ _)
    | (a₁, b) :: (c, d) :: rest =>
      simp only [mergeGo] at hj
      by_cases h : c ≤ b
      · simp only [h, if_true] at hj
        refine ih _ (by simp at hf ⊢; omega) ?_ j hj
        intro i hi
        rcases List.mem_cons.1 hi with rfl | hi
        · have h1 := hb (a₁, b) (List.mem_cons_self _ _)
          have h2 := hb (c, d) (List.mem_cons_of_mem _ (List.mem_cons_self _ _))
          dsimp only at h1 h2 ⊢
          omega
        · exact hb i (List.mem_cons_of_mem _ (List.mem_cons_of_mem _ hi))
      · simp only [h, if_false] at hj
        rcases List.mem_cons.1 hj with rfl | hj
        · exact hb _ (List.mem_cons_self _ _)
        · exact ih _ (by simp at hf ⊢; omega) (fun i hi => hb i (List.mem_cons_of_mem _ hi)) j hj

theorem mergeGo_gapped : ∀ f (l : List Iv), l.length ≤ f → List.Pairwise ivLe l →
    (∀ i ∈ l, i.1 < i.2) → List.Pairwise (fun i j => i.2 < j.1) (mergeGo f l) := by
  intro f
  induction f with
  | zero =>
    intro l hf hs hne
    match l with
    | [] => simp [mergeGo]
  | succ f ih =>
    intro l hf hs hne
    match l with
    | [] => simp [mergeGo]
    | [i] => simp [mergeGo]
    | (a₁, b) :: (c, d) :: rest =>
      simp only [mergeGo]
      have hac : a₁ ≤ c := (List.pairwise_cons.1 hs).1 (c, d) (List.mem_cons_self _ _)
      by_cases h : c ≤ b
      · simp only [h, if_true]
        have hs' : List.Pairwise ivLe ((a₁, max b d) :: rest) := by
          rcases List.pairwise_cons.1 hs with ⟨h1, hs2⟩
          rcases List.pairwise_cons.1 hs2 with ⟨h2, hs3⟩
          exact List.pairwise_cons.2 ⟨fun y hy => h1 y (List.mem_cons_of_mem _ hy), hs3⟩
        refine ih _ (by simp at hf ⊢; omega) hs' ?_
        intro i hi
        rcases List.mem_cons.1 hi with rfl | hi
        · have := hne (a₁, b) (List.mem_cons_self _ _)
          dsimp only at this ⊢
          omega
        · exact hne i (List.mem_cons_of_mem _ (List.mem_cons_of_mem _ hi))
      · simp only [h, if_false]
        have hs' : List.Pairwise ivLe ((c, d) :: rest) := (List.pairwise_cons.1 hs).2
        have hne' : ∀ i ∈ (c, d) :: rest, i.1 < i.2 :=
          fun i hi => hne i (List.mem_cons_of_mem _ hi)
        refine List.pairwise_cons.2 ⟨?_, ih _ (by simp at hf ⊢; omega) hs' hne'⟩
        intro j hj
        have := mergeGo_lo_ge f (c, d) rest (by simp at hf ⊢; omega) hs' j hj
        dsimp only at this ⊢
        omega

/-! ## Uniqueness of a gapped interval decomposition -/

/-- Two sorted interval lists with strict gaps and the same union of
addresses are equal: the canonical decomposition of a set of addresses into
maximal intervals is unique. -/
theorem gapped_union_unique : ∀ (P Q : List Iv),
    List.Pairwise (fun i j => i.2 < j.1) P → List.Pairwise (fun i j => i.2 < j.1) Q →
    (∀ i ∈ P, i.1 < i.2) → (∀ i ∈ Q, i.1 < i.2) →
    (∀ a, ivsMem a P ↔ ivsMem a Q) → P = Q := by
  intro P
  induction P with
  | nil =>
    intro Q _ _ _ hQne hU
    match Q with
    | [] => rfl
    | (c, d) :: Q' =>
      exfalso
      have hc : ivsMem c ((c, d) :: Q') := by
        refine ⟨(c, d), List.mem_cons_self _ _, ?_⟩
        have := hQne (c, d) (List.mem_cons_self _ _)
        exact ⟨Nat.le_refl _, this⟩
      have := (hU c).2 hc
      simp [ivsMem] at this
  | cons x P' ih =>
    intro Q hPg hQg hPne hQne hU
    obtain ⟨a, b⟩ := x
    match Q with
    | [] =>
      exfalso
      have ha : ivsMem a ((a, b) :: P') := by
        refine ⟨(a, b), List.mem_cons_self _ _, ?_⟩
        have := hPne (a, b) (List.mem_cons_self _ _)
        exact ⟨Nat.le_refl _, this⟩
      have := (hU a).1 ha
      simp [ivsMem] at this
    | (c, d) :: Q' =>
      have hab : a < b := hPne (a, b) (List.mem_cons_self _ _)
      have hcd : c < d := hQne (c, d) (List.mem_cons_self _ _)
      have hPg' := List.pairwise_cons.1 hPg
      have hQg' := List.pairwise_cons.1 hQg
      -- the head lower ends agree
      have hac : a = c := by
        have h1 : ivsMem a ((c, d) :: Q') :=
          (hU a).1 ⟨(a, b), List.mem_cons_self _ _, Nat.le_refl _, hab⟩
        have h2 : ivsMem c ((a, b) :: P') :=
          (hU c).2 ⟨(c, d), List.mem_cons_self _ _, Nat.le_refl _, hcd⟩
        rcases h1 with ⟨i, hi, him⟩
        rcases h2 with ⟨i', hi', him'⟩
        rcases List.mem_cons.1 hi with rfl | hi
        · rcases List.mem_cons.1 hi' with rfl | hi'
          · dsimp only [ivMem] at him him'; omega
          · have := hPg'.1 i' hi'
            dsimp only [ivMem] at him him' this
            omega
        · rcases List.mem_cons.1 hi' with rfl | hi'
          · have := hQg'.1 i hi
            dsimp only [ivMem] at him him' this
            omega
          · have g1 := hPg'.1 i' hi'
            have g2 := hQg'.1 i hi
            dsimp only [ivMem] at him him' g1 g2
            omega
      subst hac
      -- the head upper ends agree
      have hbd : b = d := by
        by_contra hne
        -- b is not in the union of P, d not in the union of Q
        have hbP : ¬ ivsMem b ((a, b) :: P') := by
          rintro ⟨i, hi, him⟩
          rcases List.mem_cons.1 hi with rfl | hi
          · dsimp only [ivMem] at him; omega
          · have := hPg'.1 i hi
            dsimp only [ivMem] at him this
            omega
        have hdQ : ¬ ivsMem d ((a, d) :: Q') := by
          rintro ⟨i, hi, him⟩
          rcases List.mem_cons.1 hi with rfl | hi
          · dsimp only [ivMem] at him; omega
          · have := hQg'.1 i hi
            dsimp only [ivMem] at him this
            omega
        rcases Nat.lt_or_ge b d with hlt | hge
        · exact hbP ((hU b).2 ⟨(a, d), List.mem_cons_self _ _, by omega, hlt⟩)
        · have hdb : d < b := by omega
          exact hdQ ((hU d).1 ⟨(a, b), List.mem_cons_self _ _, by omega, hdb⟩)
      subst hbd
      -- the tails have the same union
      have hU' : ∀ x, ivsMem x P' ↔ ivsMem x Q' := by
        intro x
        constructor
        · intro hx
          rcases hx with ⟨i, hi, him⟩
          have hgap := hPg'.1 i hi
          have hxb : b < x := by
            dsimp only [ivMem] at him
            omega
          have : ivsMem x ((a, b) :: Q') := (hU x).1 ⟨i, List.mem_cons_of_mem _ hi, him⟩
          rcases this with ⟨i', hi', him'⟩
          rcases List.mem_cons.1 hi' with rfl | hi'
          · dsimp only [ivMem] at him'; omega
          · exact ⟨i', hi', him'⟩
        · intro hx
          rcases hx with ⟨i, hi, him⟩
          have hgap := hQg'.1 i hi
          have hxb : b < x := by
            dsimp only [ivMem] at him
            omega
          have : ivsMem x ((a, b) :: P') := (hU x).2 ⟨i, List.mem_cons_of_mem _ hi, him⟩
          rcases this with ⟨i', hi', him'⟩
          rcases List.mem_cons.1 hi' with rfl | hi'
          · dsimp only [ivMem] at him'; omega
          · exact ⟨i', hi', him'⟩
      have := ih Q' hPg'.2 hQg'.2 (fun i hi => hPne i (List.mem_cons_of_mem _ hi))
        (fun i hi => hQne i (List.mem_cons_of_mem _ hi)) hU'
      rw [this]

/-! ## The canonical decomposition behind `collapse` -/

def sortedIvsOf (w : Nat) (l : List Net) : List Iv :=
  List.insertionSort ivLe (l.map (Net.iv w))

def mergedOf (w : Nat) (l : List Net) : List Iv := mergeIvs (sortedIvsOf w l)

/-- All greedy blocks of all merged intervals, in order. -/
def allChunks (w : Nat) (l : List Net) : List (Nat × Nat) :=
  (mergedOf w l).flatMap (fun i => chunks i.1 i.2)

theorem collapse_eq_map (w : Nat) (l : List Net) :
    collapse w l = (allChunks w l).map (chunkNet w) := by
  rw [collapse, allChunks, List.map_flatMap]
  rfl

theorem sortedIvsOf_sorted (w : Nat) (l : List Net) :
    List.Pairwise ivLe (sortedIvsOf w l) :=
  List.sorted_insertionSort ivLe (l.map (Net.iv w))

theorem sortedIvsOf_mem (w : Nat) (l : List Net) (i : Iv) :
    i ∈ sortedIvsOf w l ↔ i ∈ l.map (Net.iv w) :=
  (List.perm_insertionSort ivLe (l.map (Net.iv w))).mem_iff

theorem net_iv_ne (w : Nat) (n : Net) : (Net.iv w n).1 < (Net.iv w n).2 := by
  have : 0 < 2 ^ (w - n.plen) := Nat.pos_pow_of_pos _ (by omega)
  simp only [Net.iv]
  omega

theorem sortedIvsOf_ne (w : Nat) (l : List Net) : ∀ i ∈ sortedIvsOf w l, i.1 < i.2 := by
  intro i hi
  rcases List.mem_map.1 ((sortedIvsOf_mem w l i).1 hi) with ⟨n, _, rfl⟩
  exact net_iv_ne w n

theorem mergedOf_gapped (w : Nat) (l : List Net) :
    List.Pairwise (fun i j => i.2 < j.1) (mergedOf w l) :=
  mergeGo_gapped _ _ (Nat.le_refl _) (sortedIvsOf_sorted w l) (sortedIvsOf_ne w l)

theorem mergedOf_ne (w : Nat) (l : List Net) : ∀ i ∈ mergedOf w l, i.1 < i.2 :=
  mergeGo_ne _ _ (Nat.le_refl _) (sortedIvsOf_ne w l)

theorem mergedOf_union (w : Nat) (l : List Net) (a : Nat) :
    ivsMem a (mergedOf w l) ↔ ∃ n ∈ l, NetMem w a n := by
  rw [mergedOf, mergeIvs, mergeGo_union _ _ (Nat.le_refl _) (sortedIvsOf_sorted w l) a]
  constructor
  · rintro ⟨i, hi, him⟩
    rcases List.mem_map.1 ((sortedIvsOf_mem w l i).1 hi) with ⟨n, hn, rfl⟩
    exact ⟨n, hn, him⟩
  · rintro ⟨n, hn, hm⟩
    exact ⟨Net.iv w n, (sortedIvsOf_mem w l _).2 (List.mem_map_of_mem _ hn), hm⟩

theorem mergedOf_hi_le (w : Nat) (l : List Net) (hvalid : ∀ n ∈ l, NetValid w n) :
    ∀ i ∈ mergedOf w l, i.2 ≤ 2 ^ w := by
  refine mergeGo_hi_le _ _ (Nat.le_refl _) ?_
  intro i hi
  rcases List.mem_map.1 ((sortedIvsOf_mem w l i).1 hi) with ⟨n, hn, rfl⟩
  exact hvalid n hn

theorem allChunks_exp_le (w : Nat) (l : List Net) (hvalid : ∀ n ∈ l, NetValid w n) :
    ∀ ck ∈ allChunks w l, ck.2 ≤ w := by
  intro ck hck
  rcases List.mem_flatMap.1 hck with ⟨i, hi, hcki⟩
  exact chunks_exp_le (mergedOf_hi_le w l hvalid i hi) ck hcki

theorem allChunks_pairwise (w : Nat) (l : List Net) :
    List.Pairwise (fun x y => x.1 + 2 ^ x.2 ≤ y.1) (allChunks w l) := by
  rw [allChunks, List.pairwise_flatMap]
  refine ⟨fun i _ => chunks_ordered, ?_⟩
  refine (mergedOf_gapped w l).imp ?_
  intro i j hij x hx y hy
  have hxm := chunks_mem x hx
  have hym := chunks_mem y hy
  omega

theorem allChunks_cover (w : Nat) (l : List Net) (a : Nat) :
    (∃ ck ∈ allChunks w l, ck.1 ≤ a ∧ a < ck.1 + 2 ^ ck.2) ↔ ∃ n ∈ l, NetMem w a n := by
  rw [← mergedOf_union w l a]
  constructor
  · rintro ⟨ck, hck, hm⟩
    rcases List.mem_flatMap.1 hck with ⟨i, hi, hcki⟩
    have := (chunks_cover a).1 ⟨ck, hcki, hm⟩
    exact ⟨i, hi, this⟩
  · rintro ⟨i, hi, him⟩
    rcases (chunks_cover a).2 him with ⟨ck, hcki, hm⟩
    exact ⟨ck, List.mem_flatMap.2 ⟨i, hi, hcki⟩, hm⟩

/-- For an in-range chunk, `chunkNet` round-trips the interval. -/
theorem chunkNet_iv {w : Nat} {ck : Nat × Nat} (h : ck.2 ≤ w) :
    Net.iv w (chunkNet w ck) = (ck.1, ck.1 + 2 ^ ck.2) := by
  simp only [Net.iv, chunkNet]
  rw [Nat.sub_sub_self h]

theorem chunkNet_mem {w : Nat} {ck : Nat × Nat} (h : ck.2 ≤ w) (a : Nat) :
    NetMem w a (chunkNet w ck) ↔ ck.1 ≤ a ∧ a < ck.1 + 2 ^ ck.2 := by
  simp only [NetMem, chunkNet]
  rw [Nat.sub_sub_self h]

/-! ## Main properties of `collapse` -/

/-- Two networks of equal length that are the low and high half of a common
aligned parent block — the pair the merge rule would fuse into one larger
valid CIDR block. -/
def Sibling (w : Nat) (m n : Net) : Prop :=
  m.plen = n.plen ∧ 1 ≤ m.plen ∧ n.base = m.base + 2 ^ (w - m.plen) ∧
    m.base % 2 ^ (w - m.plen + 1) = 0

/-- The two networks cover no common address. -/
def NetDisjoint (w : Nat) (m n : Net) : Prop :=
  ∀ a, ¬(NetMem w a m ∧ NetMem w a n)

theorem collapse_mem {w : Nat} {l : List Net} {m : Net} :
    m ∈ collapse w l ↔ ∃ ck ∈ allChunks w l, chunkNet w ck = m := by
  rw [collapse_eq_map]
  exact List.mem_map

theorem collapse_union (w : Nat) (l : List Net) (hvalid : ∀ n ∈ l, NetValid w n) (a : Nat) :
    (∃ m ∈ collapse w l, NetMem w a m) ↔ ∃ n ∈ l, NetMem w a n := by
  rw [← allChunks_cover w l a]
  constructor
  · rintro ⟨m, hm, hmem⟩
    rcases collapse_mem.1 hm with ⟨ck, hck, rfl⟩
    exact ⟨ck, hck, (chunkNet_mem (allChunks_exp_le w l hvalid ck hck) a).1 hmem⟩
  · rintro ⟨ck, hck, hmem⟩
    exact ⟨chunkNet w ck, collapse_mem.2 ⟨ck, hck, rfl⟩,
      (chunkNet_mem (allChunks_exp_le w l hvalid ck hck) a).2 hmem⟩

theorem collapse_disjoint (w : Nat) (l : List Net) (hvalid : ∀ n ∈ l, NetValid w n) :
    List.Pairwise (NetDisjoint w) (collapse w l) := by
  rw [collapse_eq_map, List.pairwise_map]
  have hp := allChunks_pairwise w l
  have hmem := allChunks_exp_le w l hvalid
  rw [List.pairwise_iff_forall_sublist] at hp ⊢
  intro x y hsub
  have hx : x ∈ allChunks w l := hsub.subset (List.mem_cons_self _ _)
  have hy : y ∈ allChunks w l := hsub.subset (List.mem_cons_of_mem _ (List.mem_cons_self _ _))
  have hR := hp hsub
  intro a ⟨hax, hay⟩
  rw [chunkNet_mem (hmem x hx) a] at hax
  rw [chunkNet_mem (hmem y hy) a] at hay
  omega

theorem collapse_sibling_free (w : Nat) (l : List Net) (hvalid : ∀ n ∈ l, NetValid w n) :
    ∀ m ∈ collapse w l, ∀ n ∈ collapse w l, ¬ Sibling w m n := by
  intro m hm n hn hsib
  rcases collapse_mem.1 hm with ⟨x, hx, rfl⟩
  rcases collapse_mem.1 hn with ⟨y, hy, rfl⟩
  have hxw := allChunks_exp_le w l hvalid x hx
  have hyw := allChunks_exp_le w l hvalid y hy
  rcases hsib with ⟨hplen, hpos, hadj, halign⟩
  simp only [chunkNet] at hplen hpos hadj halign
  have hexp : y.2 = x.2 := by omega
  have hsub : w - (w - x.2) = x.2 := Nat.sub_sub_self hxw
  rw [hsub] at hadj halign
  -- locate the two blocks in their merged intervals
  rcases List.mem_flatMap.1 hx with ⟨i, hi, hxi⟩
  rcases List.mem_flatMap.1 hy with ⟨j, hj, hyj⟩
  by_cases hij : i = j
  · subst hij
    exact chunks_sibling_free hxi hyj hexp hadj halign
  · have hgap := (mergedOf_gapped w l).imp
      (fun {a b} (h : a.2 < b.1) => Or.inl h : ∀ {a b : Iv}, a.2 < b.1 → a.2 < b.1 ∨ b.2 < a.1)
    have hsym : Symmetric (fun a b : Iv => a.2 < b.1 ∨ b.2 < a.1) := by
      intro a b h; tauto
    have := hgap.forall hsym hi hj hij
    have hxm := chunks_mem x hxi
    have hym := chunks_mem y hyj
    have hypos : 0 < 2 ^ y.2 := Nat.pos_pow_of_pos _ (by omega)
    rcases this with hlt | hlt <;> omega

/-- `collapse` depends only on the union of addresses of its input: the
gapped decomposition of that union is unique. -/
theorem collapse_congr (w : Nat) {l₁ l₂ : List Net}
    (h : ∀ a, (∃ n ∈ l₁, NetMem w a n) ↔ ∃ n ∈ l₂, NetMem w a n) :
    collapse w l₁ = collapse w l₂ := by
  have hm : mergedOf w l₁ = mergedOf w l₂ := by
    refine gapped_union_unique _ _ (mergedOf_gapped w l₁) (mergedOf_gapped w l₂)
      (mergedOf_ne w l₁) (mergedOf_ne w l₂) ?_
    intro a
    rw [mergedOf_union, mergedOf_union]
    exact h a
  show (mergedOf w l₁).flatMap _ = (mergedOf w l₂).flatMap _
  rw [hm]

theorem collapse_idempotent (w : Nat) (l : List Net) (hvalid : ∀ n ∈ l, NetValid w n) :
    collapse w (collapse w l) = collapse w l :=
  collapse_congr w (collapse_union w l hvalid)

theorem collapse_base_sorted (w : Nat) (l : List Net) :
    List.Pairwise (fun m n => m.base < n.base) (collapse w l) := by
  rw [collapse_eq_map, List.pairwise_map]
  refine (allChunks_pairwise w l).imp ?_
  intro x y h
  have : 0 < 2 ^ x.2 := Nat.pos_pow_of_pos _ (by omega)
  simp only [chunkNet]
  omega

/-! ## Enumeration-order equivalence of groupings -/

/-- Two duplicate-tolerant enumerations of the same set of networks. -/
def netsEquiv (l₁ l₂ : List Net) : Prop := (∀ n ∈ l₁, n ∈ l₂) ∧ (∀ n ∈ l₂, n ∈ l₁)

/-- The same inner grouping, with each per-version set enumerated in a
possibly different order. -/
def innerEquiv : VGroups → VGroups → Prop
  | [], [] => True
  | (k₁, l₁) :: r₁, (k₂, l₂) :: r₂ => k₁ = k₂ ∧ netsEquiv l₁ l₂ ∧ innerEquiv r₁ r₂
  | _, _ => False

/-- The same grouping table (same keys in the same order), with each
network set enumerated in a possibly different order. -/
def groupsEquiv : Groups → Groups → Prop
  | [], [] => True
  | (k₁, m₁) :: r₁, (k₂, m₂) :: r₂ => k₁ = k₂ ∧ innerEquiv m₁ m₂ ∧ groupsEquiv r₁ r₂
  | _, _ => False

instance (l₁ l₂ : List Net) : Decidable (netsEquiv l₁ l₂) :=
  inferInstanceAs (Decidable (_ ∧ _))

def innerEquivDec : ∀ m₁ m₂ : VGroups, Decidable (innerEquiv m₁ m₂)
  | [], [] => .isTrue trivial
  | [], _ :: _ => .isFalse id
  | _ :: _, [] => .isFalse id
  | (_, _) :: r₁, (_, _) :: r₂ =>
    letI : Decidable (innerEquiv r₁ r₂) := innerEquivDec r₁ r₂
    inferInstanceAs (Decidable (_ ∧ _ ∧ _))

instance (m₁ m₂ : VGroups) : Decidable (innerEquiv m₁ m₂) := innerEquivDec m₁ m₂

def groupsEquivDec : ∀ g₁ g₂ : Groups, Decidable (groupsEquiv g₁ g₂)
  | [], [] => .isTrue trivial
  | [], _ :: _ => .isFalse id
  | _ :: _, [] => .isFalse id
  | (_, _) :: r₁, (_, _) :: r₂ =>
    letI : Decidable (groupsEquiv r₁ r₂) := groupsEquivDec r₁ r₂
    inferInstanceAs (Decidable (_ ∧ _ ∧ _))

instance (g₁ g₂ : Groups) : Decidable (groupsEquiv g₁ g₂) := groupsEquivDec g₁ g₂

theorem collapse_eq_of_netsEquiv (w : Nat) {l₁ l₂ : List Net} (h : netsEquiv l₁ l₂) :
    collapse w l₁ = collapse w l₂ := by
  refine collapse_congr w ?_
  intro a
  constructor
  · rintro ⟨n, hn, hm⟩; exact ⟨n, h.1 n hn, hm⟩
  · rintro ⟨n, hn, hm⟩; exact ⟨n, h.2 n hn, hm⟩

theorem lookup_innerEquiv {m₁ m₂ : VGroups} (h : innerEquiv m₁ m₂) (v : String) :
    (List.lookup v m₁ = none ∧ List.lookup v m₂ = none) ∨
      ∃ l₁ l₂, List.lookup v m₁ = some l₁ ∧ List.lookup v m₂ = some l₂ ∧ netsEquiv l₁ l₂ := by
  induction m₁ generalizing m₂ with
  | nil =>
    match m₂ with
    | [] => exact Or.inl ⟨rfl, rfl⟩
    | _ :: _ => exact absurd h id
  | cons x r₁ ih =>
    obtain ⟨k₁, l₁⟩ := x
    match m₂ with
    | [] => exact absurd h id
    | (k₂, l₂) :: r₂ =>
      obtain ⟨hk, hl, hr⟩ := h
      subst hk
      by_cases hv : v = k₁
      · subst hv
        right
        exact ⟨l₁, l₂, by simp [List.lookup], by simp [List.lookup], hl⟩
      · have hb : (v == k₁) = false := beq_false_of_ne hv
        have e₁ : List.lookup v ((k₁, l₁) :: r₁) = List.lookup v r₁ := by
          simp [List.lookup, hb]
        have e₂ : List.lookup v ((k₁, l₂) :: r₂) = List.lookup v r₂ := by
          simp [List.lookup, hb]
        rw [e₁, e₂]
        exact ih hr

/-! ## Output path disequalities -/

theorem zone_suffix_inj {a b : String} (h : a ++ ".zone" = b ++ ".zone") : a = b :=
  strAppend_right_cancel h

theorem countryPath_inj {v v' c c' : String} :
    countryPath v c = countryPath v' c' ↔ v = v' ∧ c = c' := by
  constructor
  · intro h
    simp only [countryPath, List.cons.injEq, and_true] at h
    obtain ⟨-, -, hv, hc⟩ := h
    exact ⟨hv, zone_suffix_inj hc⟩
  · rintro ⟨rfl, rfl⟩; rfl

theorem domainPath_inj {v v' d d' : String} :
    domainPath v d = domainPath v' d' ↔ v = v' ∧ d = d' := by
  constructor
  · intro h
    simp only [domainPath, List.cons.injEq, and_true] at h
    obtain ⟨-, -, hv, hd⟩ := h
    exact ⟨hv, zone_suffix_inj hd⟩
  · rintro ⟨rfl, rfl⟩; rfl

theorem aggPath_eq_domainPath_iff {v v' d : String} :
    domainPath v d = aggPath v' ↔ v = v' ∧ d = "aggregated" := by
  have hz : "aggregated.zone" = "aggregated" ++ ".zone" := rfl
  constructor
  · intro h
    simp only [domainPath, aggPath, List.cons.injEq, and_true] at h
    obtain ⟨-, -, hv, hd⟩ := h
    rw [hz] at hd
    exact ⟨hv, zone_suffix_inj hd⟩
  · rintro ⟨rfl, rfl⟩; rfl

theorem countryPath_ne_domainPath (v v' c d : String) : countryPath v c ≠ domainPath v' d := by
  intro h
  simp only [countryPath, domainPath, List.cons.injEq] at h
  exact absurd h.2.1 (by decide)

theorem countryPath_ne_aggPath (v v' c : String) : countryPath v c ≠ aggPath v' := by
  intro h
  simp only [countryPath, aggPath, List.cons.injEq] at h
  exact absurd h.2.1 (by decide)

theorem aggPath_inj {v v' : String} : aggPath v = aggPath v' ↔ v = v' := by
  constructor
  · intro h
    simp only [aggPath, List.cons.injEq, and_true] at h
    exact h.2.2
  · rintro rfl; rfl

/-! ## Output-phase runner lemmas -/

def keysOf (g : Groups) : List String := g.map Prod.fst

/-- The keys of a grouping that carry networks for a given version, with
those networks, in table order — exactly the iterations of the output
loops that call the writer. -/
def versionedKeys (v : String) (g : Groups) : List (String × List Net) :=
  g.filterMap (fun km => (List.lookup v km.2).map (fun nets => (km.1, nets)))

theorem versionedKeys_key_mem {v : String} {g : Groups} {k : String} {nets : List Net}
    (h : (k, nets) ∈ versionedKeys v g) : k ∈ keysOf g := by
  rcases List.mem_filterMap.1 h with ⟨km, hkm, he⟩
  rcases Option.map_eq_some'.1 he with ⟨l, hl, he'⟩
  cases he'
  exact List.mem_map_of_mem _ hkm

theorem strEmpty_append (s : String) : "" ++ s = s := by
  cases s with
  | mk d => exact congrArg String.mk (List.nil_append d)

theorem save_zone_file_ok {bad : FPath → Bool} {w : Nat} {p : FPath} {nets : List Net}
    {fs : FS} (h : bad p = false) :
    save_zone_file bad w p nets fs =
      .ok ⟨fsWrite fs p (zoneText w nets), nets.foldl (fun c _ => c + 1) 0, none⟩ := by
  simp [save_zone_file, h]

theorem runCountryKeys_frame (bad : FPath → Bool) (w : Nat) (v : String) :
    ∀ (cs : Groups) (fs : FS) (q : FPath),
      (∀ c ∈ keysOf cs, q ≠ countryPath v c) →
      fsRead (runCountryKeys bad w v cs fs).1 q = fsRead fs q := by
  intro cs
  induction cs with
  | nil => intro fs q _; rfl
  | cons x rest ih =>
    intro fs q hq
    obtain ⟨c, m⟩ := x
    have hqc : q ≠ countryPath v c := hq c (List.mem_cons_self _ _)
    have hqrest : ∀ c' ∈ keysOf rest, q ≠ countryPath v c' :=
      fun c' hc' => hq c' (List.mem_cons_of_mem _ hc')
    simp only [runCountryKeys]
    cases hlk : List.lookup v m with
    | none => exact ih fs q hqrest
    | some nets =>
      dsimp only
      by_cases hb : bad (countryPath v c)
      · simp [save_zone_file, hb]
      · rw [save_zone_file_ok (by simpa using hb)]
        dsimp only
        rw [ih _ q hqrest, fsRead_fsWrite]
        simp [hqc]

theorem runCountryKeys_spec (bad : FPath → Bool) (w : Nat) (v : String)
    (hbad : ∀ p, bad p = false) :
    ∀ (cs : Groups) (fs : FS),
      (runCountryKeys bad w v cs fs).2 = none ∧
      ((keysOf cs).Nodup → ∀ ckey nets, (ckey, nets) ∈ versionedKeys v cs →
        fsRead (runCountryKeys bad w v cs fs).1 (countryPath v ckey) =
          some (zoneText w (collapse w nets))) := by
  intro cs
  induction cs with
  | nil =>
    intro fs
    exact ⟨rfl, by intro _ ckey nets h; simp [versionedKeys] at h⟩
  | cons x rest ih =>
    intro fs
    obtain ⟨c, m⟩ := x
    simp only [runCountryKeys]
    cases hlk : List.lookup v m with
    | none =>
      refine ⟨(ih fs).1, ?_⟩
      intro hnd ckey nets hmem
      have hvk : versionedKeys v ((c, m) :: rest) = versionedKeys v rest := by
        simp [versionedKeys, hlk]
      rw [hvk] at hmem
      have hnd2 : (c :: keysOf rest).Nodup := hnd
      exact (ih fs).2 (List.nodup_cons.1 hnd2).2 ckey nets hmem
    | some nets₀ =>
      dsimp only
      rw [save_zone_file_ok (hbad _)]
      dsimp only
      set fs' := fsWrite fs (countryPath v c) (zoneText w (collapse w nets₀)) with hfs'
      refine ⟨(ih fs').1, ?_⟩
      intro hnd ckey nets hmem
      have hnd2 : (c :: keysOf rest).Nodup := hnd
      have hcn : c ∉ keysOf rest := (List.nodup_cons.1 hnd2).1
      have hndrest : (keysOf rest).Nodup := (List.nodup_cons.1 hnd2).2
      have hvk : versionedKeys v ((c, m) :: rest) = (c, nets₀) :: versionedKeys v rest := by
        simp [versionedKeys, hlk]
      rw [hvk] at hmem
      rcases List.mem_cons.1 hmem with heq | hmem
      · injection heq with h1 h2
        subst h1
        subst h2
        rw [runCountryKeys_frame bad w v rest fs' (countryPath v ckey) ?_]
        · rw [fsRead_fsWrite]
          simp
        · intro c' hc' h
          rw [countryPath_inj] at h
          exact hcn (h.2 ▸ hc')
      · exact (ih fs').2 hndrest ckey nets hmem

theorem runDomainKeys_frame (bad : FPath → Bool) (w : Nat) (v : String) :
    ∀ (ds : Groups) (fs : FS) (q : FPath),
      q ≠ aggPath v →
      (∀ d ∈ keysOf ds, q ≠ domainPath v d) →
      fsRead (runDomainKeys bad w v ds fs).1 q = fsRead fs q := by
  intro ds
  induction ds with
  | nil => intro fs q _ _; rfl
  | cons x rest ih =>
    intro fs q hqa hq
    obtain ⟨d, m⟩ := x
    have hqd : q ≠ domainPath v d := hq d (List.mem_cons_self _ _)
    have hqrest : ∀ d' ∈ keysOf rest, q ≠ domainPath v d' :=
      fun d' hd' => hq d' (List.mem_cons_of_mem _ hd')
    simp only [runDomainKeys]
    cases hlk : List.lookup v m with
    | none => exact ih fs q hqa hqrest
    | some nets =>
      dsimp only
      by_cases hb : bad (domainPath v d)
      · simp [save_zone_file, hb]
      · rw [save_zone_file_ok (by simpa using hb)]
        dsimp only
        rw [ih _ q hqa hqrest, fsRead_fsWrite]
        rw [if_neg hqa, fsRead_fsWrite, if_neg hqd]

theorem runDomainKeys_spec (bad : FPath → Bool) (w : Nat) (v : String)
    (hbad : ∀ p, bad p = false) :
    ∀ (ds : Groups) (fs : FS) (acc : String),
      fsRead fs (aggPath v) = some acc →
      (keysOf ds).Nodup →
      "aggregated" ∉ keysOf ds →
      (runDomainKeys bad w v ds fs).2 = none ∧
      fsRead (runDomainKeys bad w v ds fs).1 (aggPath v) =
        some (acc ++ concatStrs
          ((versionedKeys v ds).map (fun dn => zoneText w (collapse w dn.2)))) ∧
      ∀ dkey nets, (dkey, nets) ∈ versionedKeys v ds →
        fsRead (runDomainKeys bad w v ds fs).1 (domainPath v dkey) =
          some (zoneText w (collapse w nets)) := by
  intro ds
  induction ds with
  | nil =>
    intro fs acc hacc _ _
    refine ⟨rfl, ?_, ?_⟩
    · simp only [runDomainKeys, versionedKeys, List.filterMap_nil, List.map_nil]
      rw [hacc]
      simp [concatStrs]
    · intro dkey nets h
      simp [versionedKeys] at h
  | cons x rest ih =>
    intro fs acc hacc hnd hagg
    obtain ⟨d, m⟩ := x
    have hnd2 : (d :: keysOf rest).Nodup := hnd
    have hdn : d ∉ keysOf rest := (List.nodup_cons.1 hnd2).1
    have hndrest : (keysOf rest).Nodup := (List.nodup_cons.1 hnd2).2
    have haggrest : "aggregated" ∉ keysOf rest := by
      intro h
      exact hagg (List.mem_cons_of_mem _ h)
    have hdagg : d ≠ "aggregated" := by
      intro h
      exact hagg (h ▸ List.mem_cons_self _ _)
    simp only [runDomainKeys]
    cases hlk : List.lookup v m with
    | none =>
      have hvk : versionedKeys v ((d, m) :: rest) = versionedKeys v rest := by
        simp [versionedKeys, hlk]
      rw [hvk]
      exact ih fs acc hacc hndrest haggrest
    | some nets₀ =>
      dsimp only
      rw [save_zone_file_ok (hbad _)]
      dsimp only
      have hvk : versionedKeys v ((d, m) :: rest) = (d, nets₀) :: versionedKeys v rest := by
        simp [versionedKeys, hlk]
      rw [hvk]
      have hda : domainPath v d ≠ aggPath v := by
        intro h
        exact hdagg (aggPath_eq_domainPath_iff.1 h).2
      set ztext := zoneText w (collapse w nets₀) with hzt
      set fs1 := fsWrite fs (domainPath v d) ztext with hfs1
      have hchunk : fsRead fs1 (domainPath v d) = some ztext := by
        rw [hfs1, fsRead_fsWrite]; simp
      have hold : fsRead fs1 (aggPath v) = some acc := by
        rw [hfs1, fsRead_fsWrite, if_neg (Ne.symm hda)]
        exact hacc
      rw [hchunk, hold]
      simp only [Option.getD_some]
      set fs2 := fsWrite fs1 (aggPath v) (acc ++ ztext) with hfs2
      have hacc2 : fsRead fs2 (aggPath v) = some (acc ++ ztext) := by
        rw [hfs2, fsRead_fsWrite]; simp
      obtain ⟨herr, haggc, hdoms⟩ := ih fs2 (acc ++ ztext) hacc2 hndrest haggrest
      refine ⟨herr, ?_, ?_⟩
      · rw [haggc]
        simp only [List.map_cons, concatStrs, List.foldr_cons]
        rw [String.append_assoc]
      · intro dkey nets hmem
        rcases List.mem_cons.1 hmem with heq | hmem
        · injection heq with h1 h2
          subst h1
          subst h2
          rw [runDomainKeys_frame bad w v rest fs2 (domainPath v dkey) ?_ ?_]
          · rw [hfs2, fsRead_fsWrite, if_neg hda]
            exact hchunk
          · intro h
            exact hdagg (aggPath_eq_domainPath_iff.1 h).2
          · intro d' hd' h
            rw [domainPath_inj] at h
            exact hdn (h.2 ▸ hd')
        · exact hdoms dkey nets hmem

theorem runDomainKeys_no_error (bad : FPath → Bool) (w : Nat) (v : String)
    (hbad : ∀ p, bad p = false) :
    ∀ (ds : Groups) (fs : FS), (runDomainKeys bad w v ds fs).2 = none := by
  intro ds
  induction ds with
  | nil => intro fs; rfl
  | cons x rest ih =>
    intro fs
    obtain ⟨d, m⟩ := x
    simp only [runDomainKeys]
    cases List.lookup v m with
    | none => exact ih fs
    | some nets =>
      dsimp only
      rw [save_zone_file_ok (hbad _)]
      dsimp only
      exact ih _

theorem versionPass_frame (bad : FPath → Bool) (w : Nat) (v : String)
    (cs ds : Groups) (fs : FS) (q : FPath)
    (hqa : q ≠ aggPath v)
    (hqc : ∀ c ∈ keysOf cs, q ≠ countryPath v c)
    (hqd : ∀ d ∈ keysOf ds, q ≠ domainPath v d) :
    fsRead (versionPass bad w v cs ds fs).1 q = fsRead fs q := by
  have hcf := runCountryKeys_frame bad w v cs fs q hqc
  rcases hrc : runCountryKeys bad w v cs fs with ⟨fs1, e⟩
  rw [hrc] at hcf
  simp only [versionPass, hrc]
  cases e with
  | some e => exact hcf
  | none =>
    dsimp only
    by_cases hb : bad (aggPath v)
    · rw [if_pos hb]
      exact hcf
    · rw [if_neg hb]
      rw [runDomainKeys_frame bad w v ds _ q hqa hqd, fsRead_fsWrite, if_neg hqa]
      exact hcf

theorem versionPass_spec (bad : FPath → Bool) (w : Nat) (v : String)
    (hbad : ∀ p, bad p = false) (cs ds : Groups) (fs : FS) :
    (versionPass bad w v cs ds fs).2 = none ∧
    ((keysOf cs).Nodup → ∀ ckey nets, (ckey, nets) ∈ versionedKeys v cs →
      fsRead (versionPass bad w v cs ds fs).1 (countryPath v ckey) =
        some (zoneText w (collapse w nets))) ∧
    ((keysOf ds).Nodup → "aggregated" ∉ keysOf ds →
      fsRead (versionPass bad w v cs ds fs).1 (aggPath v) =
        some (concatStrs
          ((versionedKeys v ds).map (fun dn => zoneText w (collapse w dn.2)))) ∧
      ∀ dkey nets, (dkey, nets) ∈ versionedKeys v ds →
        fsRead (versionPass bad w v cs ds fs).1 (domainPath v dkey) =
          some (zoneText w (collapse w nets))) := by
  obtain ⟨herr, hcont⟩ := runCountryKeys_spec bad w v hbad cs fs
  rcases hrc : runCountryKeys bad w v cs fs with ⟨fs1, e⟩
  rw [hrc] at herr hcont
  dsimp only at herr
  subst herr
  have hb : ¬ (bad (aggPath v) = true) := by simp [hbad]
  simp only [versionPass, hrc]
  simp only [if_neg hb]
  set fs2 := fsWrite fs1 (aggPath v) "" with hfs2
  have hacc : fsRead fs2 (aggPath v) = some "" := by
    rw [hfs2, fsRead_fsWrite]; simp
  refine ⟨runDomainKeys_no_error bad w v hbad ds fs2, ?_, ?_⟩
  · intro hnd ckey nets hmem
    have hbase := hcont hnd ckey nets hmem
    rw [runDomainKeys_frame bad w v ds fs2 (countryPath v ckey)
      (countryPath_ne_aggPath v v ckey)
      (fun d _ => countryPath_ne_domainPath v v ckey d)]
    rw [hfs2, fsRead_fsWrite, if_neg (countryPath_ne_aggPath v v ckey)]
    exact hbase
  · intro hnd hagg
    obtain ⟨_, haggc, hdoms⟩ := runDomainKeys_spec bad w v hbad ds fs2 "" hacc hnd hagg
    rw [strEmpty_append] at haggc
    exact ⟨haggc, hdoms⟩

theorem extract_output_frame (bad : FPath → Bool) (w : Nat)
    (cs ds : Groups) (fs : FS) (q : FPath)
    (hqa : ∀ v, q ≠ aggPath v)
    (hqc : ∀ v c, c ∈ keysOf cs → q ≠ countryPath v c)
    (hqd : ∀ v d, d ∈ keysOf ds → q ≠ domainPath v d) :
    fsRead (extract_output bad w cs ds fs).1 q = fsRead fs q := by
  have h4 := versionPass_frame bad w "ipv4" cs ds fs q (hqa _) (fun c hc => hqc _ c hc)
    (fun d hd => hqd _ d hd)
  rcases hp4 : versionPass bad w "ipv4" cs ds fs with ⟨fs1, e⟩
  rw [hp4] at h4
  simp only [extract_output, hp4]
  cases e with
  | some e => exact h4
  | none =>
    dsimp only
    rw [versionPass_frame bad w "ipv6" cs ds fs1 q (hqa _) (fun c hc => hqc _ c hc)
      (fun d hd => hqd _ d hd)]
    exact h4

/-! ## The output phase depends only on the underlying network sets -/

theorem runCountryKeys_equiv (bad : FPath → Bool) (w : Nat) (v : String) :
    ∀ {c₁ c₂ : Groups}, groupsEquiv c₁ c₂ → ∀ fs : FS,
      runCountryKeys bad w v c₁ fs = runCountryKeys bad w v c₂ fs := by
  intro c₁
  induction c₁ with
  | nil =>
    intro c₂ h fs
    match c₂ with
    | [] => rfl
    | _ :: _ => exact absurd h id
  | cons x r₁ ih =>
    intro c₂ h fs
    obtain ⟨k₁, m₁⟩ := x
    match c₂ with
    | [] => exact absurd h id
    | (k₂, m₂) :: r₂ =>
      obtain ⟨hk, hm, hr⟩ := h
      subst hk
      simp only [runCountryKeys]
      rcases lookup_innerEquiv hm v with ⟨h₁, h₂⟩ | ⟨l₁, l₂, h₁, h₂, hl⟩
      · rw [h₁, h₂]
        exact ih hr fs
      · rw [h₁, h₂]
        dsimp only
        rw [collapse_eq_of_netsEquiv w hl]
        cases save_zone_file bad w (countryPath v k₁) (collapse w l₂) fs with
        | error e => rfl
        | ok r => exact ih hr r.fs

theorem runDomainKeys_equiv (bad : FPath → Bool) (w : Nat) (v : String) :
    ∀ {d₁ d₂ : Groups}, groupsEquiv d₁ d₂ → ∀ fs : FS,
      runDomainKeys bad w v d₁ fs = runDomainKeys bad w v d₂ fs := by
  intro d₁
  induction d₁ with
  | nil =>
    intro d₂ h fs
    match d₂ with
    | [] => rfl
    | _ :: _ => exact absurd h id
  | cons x r₁ ih =>
    intro d₂ h fs
    obtain ⟨k₁, m₁⟩ := x
    match d₂ with
    | [] => exact absurd h id
    | (k₂, m₂) :: r₂ =>
      obtain ⟨hk, hm, hr⟩ := h
      subst hk
      simp only [runDomainKeys]
      rcases lookup_innerEquiv hm v with ⟨h₁, h₂⟩ | ⟨l₁, l₂, h₁, h₂, hl⟩
      · rw [h₁, h₂]
        exact ih hr fs
      · rw [h₁, h₂]
        dsimp only
        rw [collapse_eq_of_netsEquiv w hl]
        cases save_zone_file bad w (domainPath v k₁) (collapse w l₂) fs with
        | error e => rfl
        | ok r => exact ih hr _

theorem versionPass_equiv (bad : FPath → Bool) (w : Nat) (v : String)
    {c₁ c₂ d₁ d₂ : Groups} (hc : groupsEquiv c₁ c₂) (hd : groupsEquiv d₁ d₂) (fs : FS) :
    versionPass bad w v c₁ d₁ fs = versionPass bad w v c₂ d₂ fs := by
  simp only [versionPass, runCountryKeys_equiv bad w v hc fs]
  rcases runCountryKeys bad w v c₂ fs with ⟨fs1, e⟩
  cases e with
  | some e => rfl
  | none =>
    dsimp only
    by_cases hb : bad (aggPath v)
    · rw [if_pos hb, if_pos hb]
    · rw [if_neg hb, if_neg hb, runDomainKeys_equiv bad w v hd]

theorem extract_output_equiv (bad : FPath → Bool) (w : Nat)
    {c₁ c₂ d₁ d₂ : Groups} (hc : groupsEquiv c₁ c₂) (hd : groupsEquiv d₁ d₂) (fs : FS) :
    extract_output bad w c₁ d₁ fs = extract_output bad w c₂ d₂ fs := by
  simp only [extract_output, versionPass_equiv bad w "ipv4" hc hd fs]
  rcases versionPass bad w "ipv4" c₂ d₂ fs with ⟨fs1, e⟩
  cases e with
  | some e => rfl
  | none =>
    dsimp only
    exact versionPass_equiv bad w "ipv6" hc hd fs1

/-! ## Record-scan lemmas -/

theorem is_cn_country_code {ip : IPInfo} (h : ip.is_cn = true) :
    ip.country_code = .vstr "CN" := of_decide_eq_true h

theorem strLower_CN : strLower "CN" = "cn" := by decide

theorem scanRecord_parse_fail (cs ds : Groups) (k : String) (r : Record)
    (hcn : (IPInfo.from_dict r).is_cn = true) (hp : parse_ip_network k = none) :
    scanRecord cs ds k r = (cs, ds) := by
  simp [scanRecord, hcn, hp]

theorem scanList_append (l₁ l₂ : List (String × Record)) (st : Groups × Groups) :
    scanList (l₁ ++ l₂) st = scanList l₂ (scanList l₁ st) := by
  simp [scanList, List.foldl_append]

theorem scanList_skip (pre post : List (String × Record)) (k : String) (r : Record)
    (st : Groups × Groups)
    (hcn : (IPInfo.from_dict r).is_cn = true) (hp : parse_ip_network k = none) :
    scanList (pre ++ (k, r) :: post) st = scanList (pre ++ post) st := by
  rw [scanList_append, scanList_append]
  show scanList post (scanRecord (scanList pre st).1 (scanList pre st).2 k r) = _
  rw [scanRecord_parse_fail _ _ _ _ hcn hp]

theorem scanRecord_classify_raise (cs ds : Groups) (k : String) (r : Record)
    {ver : Nat} {net : Net}
    (hcn : (IPInfo.from_dict r).is_cn = true)
    (hp : parse_ip_network k = some (ver, net))
    (hfd : (IPInfo.from_dict r).is_filter_domain = .error ()) :
    scanRecord cs ds k r = (ginsert cs "cn" (ipvStr ver) net, ds) := by
  have hcc := is_cn_country_code hcn
  simp only [scanRecord, hcn, if_true, hp, hcc, valueLower, strLower_CN, hfd]

theorem ginsert_keys : ∀ (g : Groups) (key ipv : String) (n : Net) (k : String),
    k ∈ keysOf (ginsert g key ipv n) → k = key ∨ k ∈ keysOf g := by
  intro g
  induction g with
  | nil =>
    intro key ipv n k hk
    simp [ginsert, keysOf] at hk
    exact Or.inl hk
  | cons x rest ih =>
    intro key ipv n k hk
    obtain ⟨k₀, m₀⟩ := x
    simp only [ginsert] at hk
    by_cases he : k₀ = key
    · simp only [he, beq_self_eq_true, if_true] at hk
      simp only [keysOf, List.map_cons, List.mem_cons] at hk
      rcases hk with heq | hk
      · exact Or.inl heq
      · exact Or.inr (by simp only [keysOf, List.map_cons, List.mem_cons]; exact Or.inr hk)
    · rw [if_neg (by simpa using he)] at hk
      simp only [keysOf, List.map_cons, List.mem_cons] at hk
      rcases hk with heq | hk
      · exact Or.inr (by simp [keysOf, heq])
      · rcases ih key ipv n k hk with h | h
        · exact Or.inl h
        · exact Or.inr (by simp only [keysOf, List.map_cons, List.mem_cons]; exact Or.inr h)

theorem scanRecord_country_keys (cs ds : Groups) (k : String) (r : Record) :
    ∀ key ∈ keysOf (scanRecord cs ds k r).1, key = "cn" ∨ key ∈ keysOf cs := by
  intro key hkey
  by_cases hcn : (IPInfo.from_dict r).is_cn
  · have hcc := is_cn_country_code hcn
    cases hp : parse_ip_network k with
    | none =>
      rw [scanRecord_parse_fail cs ds k r hcn hp] at hkey
      exact Or.inr hkey
    | some vn =>
      obtain ⟨ver, net⟩ := vn
      simp only [scanRecord, hcn, if_true, hp, hcc, valueLower, strLower_CN] at hkey
      cases hfd : (IPInfo.from_dict r).is_filter_domain with
      | error e =>
        rw [hfd] at hkey
        dsimp only at hkey
        exact ginsert_keys cs "cn" (ipvStr ver) net key hkey
      | ok b =>
        rw [hfd] at hkey
        cases b with
        | false =>
          dsimp only at hkey
          exact ginsert_keys cs "cn" (ipvStr ver) net key hkey
        | true =>
          dsimp only at hkey
          cases had : (IPInfo.from_dict r).as_domain with
          | vstr s =>
            rw [had] at hkey
            dsimp only at hkey
            exact ginsert_keys cs "cn" (ipvStr ver) net key hkey
          | vother =>
            rw [had] at hkey
            dsimp only at hkey
            exact ginsert_keys cs "cn" (ipvStr ver) net key hkey
  · simp only [scanRecord, Bool.not_eq_true] at hcn
    simp only [scanRecord, hcn, if_false] at hkey
    exact Or.inr hkey

theorem scanList_country_keys : ∀ (entries : List (String × Record)) (st : Groups × Groups),
    ∀ key ∈ keysOf (scanList entries st).1, key = "cn" ∨ key ∈ keysOf st.1 := by
  intro entries
  induction entries with
  | nil => intro st key hk; exact Or.inr hk
  | cons e rest ih =>
    intro st key hk
    rw [show scanList (e :: rest) st = scanList rest (scanRecord st.1 st.2 e.1 e.2) from rfl]
      at hk
    rcases ih _ key hk with h | h
    · exact Or.inl h
    · exact scanRecord_country_keys st.1 st.2 e.1 e.2 key h

/-! # Claim theorems -/

/-- C1 (counterexample): the claim states that `is_filtered_domain()` is
true whenever a rule exists for the LOWERCASE-NORMALIZED `as_domain` (with
`is_filter` set and no name check required).  For the record with
`as_domain = "QQ.com"` the spec-side predicate is true (the table has
`qq.com`, `is_filter = true`, `use_as_name = false`), but the source looks
the domain up without lower-casing, finds nothing, and returns false. -/
theorem claim_C1_counterexample :
    (IPInfo.from_dict [("as_domain", Value.vstr "QQ.com")]).is_filter_domain = .ok false ∧
      is_filtered_domain_specSide (IPInfo.from_dict [("as_domain", Value.vstr "QQ.com")]) =
        true := by
  constructor
  · decide
  · decide

/-- C1 (amended): for every attribute record with string fields,
`is_filter_domain()` returns true iff `as_domain` is non-empty AND a rule
exists in the AS-domain rule table for the `as_domain` string exactly as
stored (no lowercase normalization — the table keys are already
lowercase) AND that rule's `is_filter` flag is true AND (the rule's
`use_as_name` flag is false OR the record's `as_name` matches the
compiled keyword pattern); it returns false in every other case,
including when `as_domain` is absent (empty). -/
theorem claim_C1_is_filter_domain_iff (cont ccode cty cc d n asn : String) :
    (IPInfo.mk (.vstr cont) (.vstr ccode) (.vstr cty) (.vstr cc) (.vstr d) (.vstr n)
        (.vstr asn)).is_filter_domain = .ok true ↔
      d ≠ "" ∧ ∃ rule, AS_DOMAIN_KV_get d = some rule ∧ rule.is_filter = true ∧
        (rule.use_as_name = true → regexAsNameSearch n = true) := by
  simp only [IPInfo.is_filter_domain, truthy, kvGet]
  by_cases hd : d = ""
  · subst hd
    simp
  · rw [if_pos (by simpa using hd)]
    cases hkv : AS_DOMAIN_KV_get d with
    | none => simp [hd]
    | some rule =>
      cases hif : rule.is_filter with
      | false => simp [hd, hif]
      | true =>
        cases hun : rule.use_as_name with
        | false => simp [hd, hif, hun]
        | true =>
          cases hre : regexAsNameSearch n with
          | false => simp [hd, hif, hun, hre]
          | true => simp [hd, hif, hun, hre]

/-- C3: the compiled pattern is
`\bBeijing|Tianjin|...|Cloud Computing Corporation\b`; alternation binds
loosest, so only the first branch carries the leading `\b` and only the
last carries the trailing `\b`.  Hence the middle keyword `Tianjin`
matches inside the longer word `XTianjinX` (and `Beijing` matches
`Beijinger`), while the spec-side search with anchors on each side of
every keyword does not — the code contradicts the claim that every
keyword occurrence must be word-boundary-delimited on both sides. -/
theorem claim_C3_boundary_bug :
    regexAsNameSearch "XTianjinX" = true ∧ specKeywordSearch "XTianjinX" = false ∧
      regexAsNameSearch "Beijinger" = true := by
  refine ⟨by decide, by decide, by decide⟩

/-- C4 (counterexample): the claim states that the zone-file write
operation RETURNS the number of lines it wrote.  `save_zone_file` is
annotated `-> None` and has no return statement: at this concrete input
it writes one line but the value the caller receives is `None`, not
`1`. -/
theorem claim_C4_counterexample :
    save_zone_file (fun _ => false) 32 ["data", "x.zone"] [⟨16909056, 24⟩] [] =
      .ok ⟨fsWrite [] ["data", "x.zone"] (zoneText 32 [⟨16909056, 24⟩]), 1, none⟩ ∧
      (none : Option Nat) ≠ some ([(⟨16909056, 24⟩ : Net)].length) := by
  refine ⟨by decide, by decide⟩

/-- C4 (amended): for every path and finite sequence of networks, the
zone-file writer (when the directory/open succeeds) logs the number of
lines it wrote — it does not return it, its Python return value is
`None` — and that count equals the length of the input sequence; it
writes one network per line in canonical CIDR text form in the exact
order provided, overwrites any existing file at that path, and touches
no other path. -/
theorem claim_C4_save_zone_file (bad : FPath → Bool) (w : Nat) (p : FPath)
    (networks : List Net) (fs : FS) (hbad : bad p = false) :
    ∃ r, save_zone_file bad w p networks fs = .ok r ∧
      fsRead r.fs p = some (concatStrs (networks.map (fun n => netStr w n ++ "\n"))) ∧
      r.loggedCount = networks.length ∧
      r.ret = none ∧
      ∀ q, q ≠ p → fsRead r.fs q = fsRead fs q := by
  refine ⟨_, save_zone_file_ok hbad, ?_, ?_, rfl, ?_⟩
  · dsimp only
    rw [fsRead_fsWrite, if_pos rfl, zoneText_eq_concat]
  · dsimp only
    rw [foldl_count]
    omega
  · intro q hq
    dsimp only
    rw [fsRead_fsWrite, if_neg hq]

/-- Witness for C4: the writer applied to one network over a stale file. -/
theorem claim_C4_witness :
    ((fun _ : FPath => false) ["data", "x.zone"]) = false ∧
    ∃ r, save_zone_file (fun _ => false) 32 ["data", "x.zone"] [⟨16909056, 24⟩]
        [(["data", "x.zone"], "stale")] = .ok r ∧
      fsRead r.fs ["data", "x.zone"] =
        some (concatStrs ([(⟨16909056, 24⟩ : Net)].map (fun n => netStr 32 n ++ "\n"))) ∧
      r.loggedCount = [(⟨16909056, 24⟩ : Net)].length ∧
      r.ret = none ∧
      ∀ q, q ≠ ["data", "x.zone"] → fsRead r.fs q =
        fsRead [(["data", "x.zone"], "stale")] q :=
  ⟨rfl, claim_C4_save_zone_file (fun _ => false) 32 ["data", "x.zone"]
    [⟨16909056, 24⟩] [(["data", "x.zone"], "stale")] rfl⟩

/-- C2 (counterexample): the claim states that a write failure for one
group key's zone file does not prevent the processing of the remaining
group keys.  With a failure injected for `d1`'s zone file only, the run
aborts: `d2`'s zone file is never written and the pipeline surfaces the
failure for `d1`. -/
theorem claim_C2_counterexample :
    fsRead (extract_output (fun p => decide (p = domainPath "ipv4" "d1")) 32 []
        [("d1", [("ipv4", [⟨0, 24⟩])]), ("d2", [("ipv4", [⟨256, 24⟩])])] []).1
      (domainPath "ipv4" "d2") = none ∧
    (extract_output (fun p => decide (p = domainPath "ipv4" "d1")) 32 []
        [("d1", [("ipv4", [⟨0, 24⟩])]), ("d2", [("ipv4", [⟨256, 24⟩])])] []).2 =
      some (domainPath "ipv4" "d1") := by
  refine ⟨by decide, by decide⟩

/-- C2 (amended): the output loops call `save_zone_file` with no
`try`/`except`, so a directory-creation or open failure for one group
key's zone file raises out of the loop: the failing key's error is
surfaced as the propagated exception, the filesystem is left as it was
before that key, and the remaining group keys of that loop are NOT
processed — in both the countries loop and the domains loop. -/
theorem claim_C2_write_failure_aborts (bad : FPath → Bool) (w : Nat) (v : String)
    (c d : String) (m : VGroups) (rest : Groups) (fs : FS) (nets : List Net)
    (hlk : List.lookup v m = some nets) :
    (bad (countryPath v c) = true →
      runCountryKeys bad w v ((c, m) :: rest) fs = (fs, some (countryPath v c))) ∧
    (bad (domainPath v d) = true →
      runDomainKeys bad w v ((d, m) :: rest) fs = (fs, some (domainPath v d))) := by
  constructor
  · intro hb
    simp [runCountryKeys, hlk, save_zone_file, hb]
  · intro hb
    simp [runDomainKeys, hlk, save_zone_file, hb]

/-- Witness for C2: a failing key at the head of each loop aborts it. -/
theorem claim_C2_witness :
    runCountryKeys (fun p => decide (p = countryPath "ipv4" "k" ∨ p = domainPath "ipv4" "k"))
        32 "ipv4" [("k", [("ipv4", [⟨0, 24⟩])]), ("k2", [("ipv4", [⟨0, 24⟩])])] [] =
      ([], some (countryPath "ipv4" "k")) ∧
    runDomainKeys (fun p => decide (p = countryPath "ipv4" "k" ∨ p = domainPath "ipv4" "k"))
        32 "ipv4" [("k", [("ipv4", [⟨0, 24⟩])]), ("k2", [("ipv4", [⟨0, 24⟩])])] [] =
      ([], some (domainPath "ipv4" "k")) :=
  ⟨(claim_C2_write_failure_aborts
      (fun p => decide (p = countryPath "ipv4" "k" ∨ p = domainPath "ipv4" "k"))
      32 "ipv4" "k" "k" [("ipv4", [⟨0, 24⟩])] [("k2", [("ipv4", [⟨0, 24⟩])])] [] [⟨0, 24⟩]
      (by decide)).1 (by decide),
   (claim_C2_write_failure_aborts
      (fun p => decide (p = countryPath "ipv4" "k" ∨ p = domainPath "ipv4" "k"))
      32 "ipv4" "k" "k" [("ipv4", [⟨0, 24⟩])] [("k2", [("ipv4", [⟨0, 24⟩])])] [] [⟨0, 24⟩]
      (by decide)).2 (by decide)⟩

/-- C5: for every list of valid networks of one address family (width
`w`), the collapsed output covers exactly the same addresses as the input
(no address gained or lost), contains no two overlapping blocks, and
contains no two blocks that could merge into a single larger valid CIDR
block.  (`ipaddress.collapse_addresses` is standard-library code, so the
collapser is modelled from the spec's contract, §4.4.) -/
theorem claim_C5_collapse_correct (w : Nat) (l : List Net)
    (hvalid : ∀ n ∈ l, NetValid w n) :
    (∀ a, (∃ m ∈ collapse w l, NetMem w a m) ↔ ∃ n ∈ l, NetMem w a n) ∧
    List.Pairwise (NetDisjoint w) (collapse w l) ∧
    (∀ m ∈ collapse w l, ∀ n ∈ collapse w l, ¬ Sibling w m n) :=
  ⟨collapse_union w l hvalid, collapse_disjoint w l hvalid,
    collapse_sibling_free w l hvalid⟩

/-- Witness for C5: two mergeable /24 blocks. -/
theorem claim_C5_witness :
    (∀ n ∈ [Net.mk 256 24, Net.mk 0 24], NetValid 32 n) ∧
    ((∀ a, (∃ m ∈ collapse 32 [Net.mk 256 24, Net.mk 0 24], NetMem 32 a m) ↔
        ∃ n ∈ [Net.mk 256 24, Net.mk 0 24], NetMem 32 a n) ∧
      List.Pairwise (NetDisjoint 32) (collapse 32 [Net.mk 256 24, Net.mk 0 24]) ∧
      (∀ m ∈ collapse 32 [Net.mk 256 24, Net.mk 0 24],
        ∀ n ∈ collapse 32 [Net.mk 256 24, Net.mk 0 24], ¬ Sibling 32 m n)) :=
  ⟨by decide, claim_C5_collapse_correct 32 [Net.mk 256 24, Net.mk 0 24] (by decide)⟩

/-- C8: the collapser is idempotent — collapsing its own output returns
it unchanged — and its output is sorted strictly ascending by base
address.  (Spec-modelled as for C5.) -/
theorem claim_C8_collapse_idempotent (w : Nat) (l : List Net)
    (hvalid : ∀ n ∈ l, NetValid w n) :
    collapse w (collapse w l) = collapse w l ∧
    List.Pairwise (fun m n => m.base < n.base) (collapse w l) :=
  ⟨collapse_idempotent w l hvalid, collapse_base_sorted w l⟩

/-- Witness for C8: a mixed list with duplicates and containments. -/
theorem claim_C8_witness :
    (∀ n ∈ [Net.mk 512 23, Net.mk 0 25, Net.mk 128 25, Net.mk 0 25], NetValid 32 n) ∧
    (collapse 32 (collapse 32 [Net.mk 512 23, Net.mk 0 25, Net.mk 128 25, Net.mk 0 25]) =
        collapse 32 [Net.mk 512 23, Net.mk 0 25, Net.mk 128 25, Net.mk 0 25] ∧
      List.Pairwise (fun m n => m.base < n.base)
        (collapse 32 [Net.mk 512 23, Net.mk 0 25, Net.mk 128 25, Net.mk 0 25])) :=
  ⟨by decide, claim_C8_collapse_idempotent 32
    [Net.mk 512 23, Net.mk 0 25, Net.mk 128 25, Net.mk 0 25] (by decide)⟩

/-- C9: the extraction output is deterministic.  In this pure embedding
the only run-to-run nondeterminism of the source is the unspecified
iteration order of the Python `set` accumulators (dict iteration order is
insertion order, fixed by the record sequence), so determinism is
formalized as: two groupings with the same keys in the same order whose
per-version network sets are enumerated in any orders produce
byte-identical filesystems, failure environment included. -/
theorem claim_C9_deterministic (bad : FPath → Bool) (w : Nat) {c₁ c₂ d₁ d₂ : Groups}
    (hc : groupsEquiv c₁ c₂) (hd : groupsEquiv d₁ d₂) (fs : FS) :
    extract_output bad w c₁ d₁ fs = extract_output bad w c₂ d₂ fs :=
  extract_output_equiv bad w hc hd fs

/-- Witness for C9: the same country set enumerated in two orders (with a
duplicate) writes identical zone files. -/
theorem claim_C9_witness :
    groupsEquiv [("cn", [("ipv4", [Net.mk 0 24, Net.mk 256 24])])]
      [("cn", [("ipv4", [Net.mk 256 24, Net.mk 0 24, Net.mk 0 24])])] ∧
    extract_output (fun _ => false) 32 [("cn", [("ipv4", [Net.mk 0 24, Net.mk 256 24])])] [] [] =
      extract_output (fun _ => false) 32
        [("cn", [("ipv4", [Net.mk 256 24, Net.mk 0 24, Net.mk 0 24])])] [] [] :=
  ⟨by decide, claim_C9_deterministic (fun _ => false) 32 (by decide) (by decide) []⟩

/-- C7: with no write failures, distinct domain keys and no key named
`aggregated`, the aggregated zone file of each IP version ends up holding
exactly the ordered concatenation of the contents of every per-domain
zone file written for that version, in grouping-table visitation order —
and it does so for every initial filesystem, i.e. it is rebuilt fresh
(truncated) at the start of that version's pass. -/
theorem claim_C7_aggregated_concat (bad : FPath → Bool) (w : Nat)
    (cs ds : Groups) (fs : FS) (hbad : ∀ p, bad p = false)
    (hnd : (keysOf ds).Nodup) (hagg : "aggregated" ∉ keysOf ds) :
    ∀ v ∈ (["ipv4", "ipv6"] : List String),
      fsRead (extract_output bad w cs ds fs).1 (aggPath v) =
        some (concatStrs
          ((versionedKeys v ds).map (fun dn => zoneText w (collapse w dn.2)))) ∧
      ∀ dkey nets, (dkey, nets) ∈ versionedKeys v ds →
        fsRead (extract_output bad w cs ds fs).1 (domainPath v dkey) =
          some (zoneText w (collapse w nets)) := by
  obtain ⟨herr4, _, hdd4⟩ := versionPass_spec bad w "ipv4" hbad cs ds fs
  rcases hp4 : versionPass bad w "ipv4" cs ds fs with ⟨fs1, e⟩
  rw [hp4] at herr4 hdd4
  dsimp only at herr4
  subst herr4
  obtain ⟨_, _, hdd6⟩ := versionPass_spec bad w "ipv6" hbad cs ds fs1
  intro v hv
  simp only [extract_output, hp4]
  have hv' : v = "ipv4" ∨ v = "ipv6" := by simpa using hv
  rcases hv' with rfl | rfl
  · obtain ⟨hagg4, hdom4⟩ := hdd4 hnd hagg
    have hne1 : aggPath "ipv4" ≠ aggPath "ipv6" := by
      intro h; exact absurd (aggPath_inj.1 h) (by decide)
    constructor
    · rw [versionPass_frame bad w "ipv6" cs ds fs1 (aggPath "ipv4") hne1
        (fun c _ => Ne.symm (countryPath_ne_aggPath "ipv6" "ipv4" c))
        (fun d _ h => by
          have := aggPath_eq_domainPath_iff.1 h.symm
          exact absurd this.1 (by decide))]
      exact hagg4
    · intro dkey nets hmem
      rw [versionPass_frame bad w "ipv6" cs ds fs1 (domainPath "ipv4" dkey)
        (fun h => absurd (aggPath_eq_domainPath_iff.1 h).1 (by decide))
        (fun c _ => Ne.symm (countryPath_ne_domainPath "ipv6" "ipv4" c dkey))
        (fun d _ h => by
          have := domainPath_inj.1 h
          exact absurd this.1 (by decide))]
      exact hdom4 dkey nets hmem
  · exact hdd6 hnd hagg

/-- Witness for C7: one domain group, stale aggregated content that gets
truncated. -/
theorem claim_C7_witness :
    (∀ p, (fun _ : FPath => false) p = false) ∧
    ((keysOf [("qq.com", [("ipv4", [Net.mk 0 24])])]).Nodup) ∧
    ("aggregated" ∉ keysOf [("qq.com", [("ipv4", [Net.mk 0 24])])]) ∧
    ∀ v ∈ (["ipv4", "ipv6"] : List String),
      fsRead (extract_output (fun _ => false) 32 [] [("qq.com", [("ipv4", [Net.mk 0 24])])]
          [(aggPath "ipv4", "stale")]).1 (aggPath v) =
        some (concatStrs
          ((versionedKeys v [("qq.com", [("ipv4", [Net.mk 0 24])])]).map
            (fun dn => zoneText 32 (collapse 32 dn.2)))) ∧
      ∀ dkey nets, (dkey, nets) ∈ versionedKeys v [("qq.com", [("ipv4", [Net.mk 0 24])])] →
        fsRead (extract_output (fun _ => false) 32 [] [("qq.com", [("ipv4", [Net.mk 0 24])])]
            [(aggPath "ipv4", "stale")]).1 (domainPath v dkey) =
          some (zoneText 32 (collapse 32 nets)) :=
  ⟨fun _ => rfl, by decide, by decide,
    claim_C7_aggregated_concat (fun _ => false) 32 [] [("qq.com", [("ipv4", [Net.mk 0 24])])]
      [(aggPath "ipv4", "stale")] (fun _ => rfl) (by decide) (by decide)⟩

/-- C10: throughout any run, the country grouping table contains at most
the single key `cn` — the insertion is guarded by `is_cn` (so the
lowercased `country_code` inserted is always `cn`) — and consequently the
only country zone files the output phase can alter, for any failure
environment, are `countries/<version>/cn.zone`. -/
theorem claim_C10_only_cn (entries : List (String × Record)) (bad : FPath → Bool)
    (w : Nat) (fs : FS) :
    (∀ key ∈ keysOf (scanList entries ([], [])).1, key = "cn") ∧
    ∀ v c, fsRead (extract_output bad w (scanList entries ([], [])).1
        (scanList entries ([], [])).2 fs).1 (countryPath v c) ≠
      fsRead fs (countryPath v c) → c = "cn" := by
  have hkeys : ∀ key ∈ keysOf (scanList entries ([], [])).1, key = "cn" := by
    intro key hk
    rcases scanList_country_keys entries ([], []) key hk with h | h
    · exact h
    · simp [keysOf] at h
  refine ⟨hkeys, ?_⟩
  intro v c hch
  by_contra hc
  apply hch
  refine extract_output_frame bad w _ _ fs (countryPath v c) ?_ ?_ ?_
  · intro v'
    exact countryPath_ne_aggPath v v' c
  · intro v' c' hc' h
    rw [countryPath_inj] at h
    exact hc (h.2.trans (hkeys c' hc'))
  · intro v' d _
    exact countryPath_ne_domainPath v v' c d

/-- Witness for C10: one `CN` record; only `cn.zone` appears. -/
theorem claim_C10_witness :
    ("cn" = "cn") ∧ ("cn" = "cn") :=
  ⟨(claim_C10_only_cn [("1.2.3.0/24", [("country_code", Value.vstr "CN")])]
      (fun _ => false) 32 []).1 "cn" (by decide),
   (claim_C10_only_cn [("1.2.3.0/24", [("country_code", Value.vstr "CN")])]
      (fun _ => false) 32 []).2 "ipv4" "cn" (by decide)⟩

/-- C6 (counterexample): the claim states that a record whose
classification raises is inserted into NEITHER group.  This `CN` record
has the `use_as_name` domain `chinatelecom.cn` and a non-string
`as_name`, so `is_filter_domain()` raises `TypeError` — but the country
insertion on the preceding line has already happened: after the scan the
record's network sits in the country group (and not in the domain
group). -/
theorem claim_C6_counterexample :
    (scanList [("1.2.3.0/24", [("country_code", Value.vstr "CN"),
        ("as_domain", Value.vstr "chinatelecom.cn"), ("as_name", Value.vother)])]
        ([], [])).1 = [("cn", [("ipv4", [⟨16909056, 24⟩])])] ∧
    (scanList [("1.2.3.0/24", [("country_code", Value.vstr "CN"),
        ("as_domain", Value.vstr "chinatelecom.cn"), ("as_name", Value.vother)])]
        ([], [])).2 = ([] : Groups) ∧
    (IPInfo.from_dict [("country_code", Value.vstr "CN"),
        ("as_domain", Value.vstr "chinatelecom.cn"), ("as_name", Value.vother)]
      ).is_filter_domain = .error () := by
  refine ⟨by decide, by decide, by decide⟩

/-- C6 (amended): the scan (a total fold) never aborts; a record whose
network key fails to parse is skipped entirely — inserted into neither
group, leaving the grouping of all other records unchanged — while a
record whose classification raises in `is_filter_domain()` is inserted
into the country group (the line-294 insertion precedes the line-295
check) but not into the domain group. -/
theorem claim_C6_per_record_errors (cs ds : Groups) (k : String) (r : Record) :
    ((IPInfo.from_dict r).is_cn = true → parse_ip_network k = none →
      scanRecord cs ds k r = (cs, ds)) ∧
    (∀ pre post st, (IPInfo.from_dict r).is_cn = true → parse_ip_network k = none →
      scanList (pre ++ (k, r) :: post) st = scanList (pre ++ post) st) ∧
    (∀ ver net, (IPInfo.from_dict r).is_cn = true →
      parse_ip_network k = some (ver, net) →
      (IPInfo.from_dict r).is_filter_domain = .error () →
      scanRecord cs ds k r = (ginsert cs "cn" (ipvStr ver) net, ds)) :=
  ⟨fun hcn hp => scanRecord_parse_fail cs ds k r hcn hp,
   fun pre post st hcn hp => scanList_skip pre post k r st hcn hp,
   fun ver net hcn hp hfd => scanRecord_classify_raise cs ds k r hcn hp hfd⟩

/-- Witness for C6: an unparseable key is skipped around a well-formed
record; a raising record still lands in the country group. -/
theorem claim_C6_witness :
    (scanRecord [] [] "not-a-network" [("country_code", Value.vstr "CN")] = ([], [])) ∧
    (scanList ([("1.2.3.0/24", [("country_code", Value.vstr "CN")])] ++
        ("not-a-network", [("country_code", Value.vstr "CN")]) :: []) ([], []) =
      scanList ([("1.2.3.0/24", [("country_code", Value.vstr "CN")])] ++ []) ([], [])) ∧
    (scanRecord [] [] "1.2.3.0/24" [("country_code", Value.vstr "CN"),
        ("as_domain", Value.vstr "chinatelecom.cn"), ("as_name", Value.vother)] =
      (ginsert [] "cn" (ipvStr 4) ⟨16909056, 24⟩, [])) :=
  ⟨(claim_C6_per_record_errors [] [] "not-a-network"
      [("country_code", Value.vstr "CN")]).1 (by decide) (by decide),
   (claim_C6_per_record_errors [] [] "not-a-network"
      [("country_code", Value.vstr "CN")]).2.1
      [("1.2.3.0/24", [("country_code", Value.vstr "CN")])] [] ([], [])
      (by decide) (by decide),
   (claim_C6_per_record_errors [] [] "1.2.3.0/24"
      [("country_code", Value.vstr "CN"), ("as_domain", Value.vstr "chinatelecom.cn"),
        ("as_name", Value.vother)]).2.2 4 ⟨16909056, 24⟩
      (by decide) (by decide) (by decide)⟩
